import Mathlib

/-!
# Verification of the MST computation core (`src/final.py`, `src/index.py`)

This file gives a shallow embedding, in Lean 4, of the core of the
repository: the Disjoint Set Union structure (`DSU`, identical in both
source files), Kruskal's algorithm (`kruskals_mst`, `src/final.py` lines
38–57), Prim's algorithm (`prims_mst`, `src/final.py` lines 60–106), the
vertex remappers (`map_id_to_idx` in `src/final.py`, the `id_offset`
fallback in `src/index.py`), and the adjacency-list builder from
`src/final.py`'s `main`.

Conventions of the embedding:
* Python `float` weights are embedded as exact rationals `ℚ`; the spec's
  1e-9 tolerance statements become exact equalities.
* Python lists become Lean `List`s; `list[i]` reads become `List.getD`
  (all theorems restrict to in-range indices, where the two agree), and
  `list[i] = v` writes become `List.set`.
* The recursive `DSU.find` performs path compression; in Python its
  termination relies on the parent chains being acyclic.  It is embedded
  with explicit fuel `parent.length + 1`, and we prove that on every
  well-formed state this fuel suffices, so the embedded function returns
  `some` exactly where the Python function terminates normally.
* Python's stable `sorted(edge_list, key=lambda item: item[2])` is
  embedded as the stable `List.insertionSort` on the weight component:
  stable sorts of the same list under the same key agree elementwise.
* `heapq` is embedded as a bag of `(weight, source, dest)` triples from
  which `heappop` removes a lexicographically least element; Python's
  `heappop` returns exactly the lexicographically least tuple, so the
  observable pop sequence agrees.
* Prim's `while` loop is embedded with explicit fuel together with a
  proof (`primRun_isSome`) that the chosen fuel always suffices.
-/

/-! ## Definitions -/

/-- An edge as it appears in `edge_list` in the source: `[u, v, weight]`. -/
abbrev Edge : Type := Nat × Nat × ℚ

/-- An adjacency-list entry: `(neighbor, weight)`. -/
abbrev AdjEntry : Type := Nat × ℚ

/-- The adjacency "dict" `{vertex: [(neighbor, weight), ...]}` of
`prims_mst`, embedded as an association list. -/
abbrev AdjList : Type := List (Nat × List AdjEntry)

/-- `adj_list.get(v, [])`: dictionary lookup with default `[]`
(`src/final.py` lines 88 and 102). -/
def dictGet (adj : AdjList) (v : Nat) : List AdjEntry :=
  match adj.find? (fun p => p.1 = v) with
  | some p => p.2
  | none => []

/-- The DSU state: `self.parent` and `self.rank`
(`src/final.py` lines 14–16, `src/index.py` lines 11–14). -/
structure DSU where
  parent : List Nat
  rank : List Nat
deriving Repr, DecidableEq

/-- `DSU.__init__(n)` for a natural number argument:
`parent = list(range(n))`, `rank = [1] * n`. -/
def DSU.create (n : Nat) : DSU :=
  ⟨List.range n, List.replicate n 1⟩

/-- `DSU.__init__(n)` as called from Python, where `n : int` may be
negative; `list(range(n))` and `[1] * n` are empty for `n ≤ 0`.  The
`Except` codomain records that the Python constructor is also able to
raise an exception; the source constructor never does. -/
def DSU.init (n : Int) : Except String DSU :=
  Except.ok ⟨List.range n.toNat, List.replicate n.toNat 1⟩

/-- One parent-array read `self.parent[i]`; out-of-range reads (which
raise `IndexError` in Python) are given the harmless default `i`, and
every theorem below restricts to in-range indices. -/
def pget (p : List Nat) (i : Nat) : Nat :=
  p.getD i i

/-- `DSU.find` (`src/final.py` lines 18–22) with explicit fuel:
```
def find(self, i):
    if self.parent[i] == i:
        return i
    self.parent[i] = self.find(self.parent[i])
    return self.parent[i]
```
Returns the discovered root together with the path-compressed parent
array, or `none` if the fuel is exhausted (which provably never happens
on well-formed states with fuel `p.length + 1`). -/

def findAux : Nat → List Nat → Nat → Option (Nat × List Nat)
  | 0, _, _ => none
  | fuel + 1, p, i =>
    if pget p i = i then
      some (i, p)
    else
      match findAux fuel p (pget p i) with
      | none => none
      | some (r, p1) => some (r, p1.set i r)

/-- `DSU.find` on a `DSU` state, with the fuel proved sufficient for
well-formed states. -/
def DSU.find (d : DSU) (i : Nat) : Option (Nat × DSU) :=
  match findAux (d.parent.length + 1) d.parent i with
  | none => none
  | some (r, p1) => some (r, ⟨p1, d.rank⟩)

/-- `DSU.union` (`src/final.py` lines 24–36):
```
def union(self, x, y):
    root_x = self.find(x)
    root_y = self.find(y)
    if root_x != root_y:
        if self.rank[root_x] < self.rank[root_y]:
            self.parent[root_x] = root_y
        elif self.rank[root_x] > self.rank[root_y]:
            self.parent[root_y] = root_x
        else:
            self.parent[root_y] = root_x
            self.rank[root_x] += 1
        return True
    return False
```
The second `find` runs on the state already compressed by the first. -/

def DSU.union (d : DSU) (x y : Nat) : Option (Bool × DSU) :=
  match d.find x with
  | none => none
  | some (root_x, d1) =>
    match d1.find y with
    | none => none
    | some (root_y, d2) =>
      if root_x ≠ root_y then
        if d2.rank.getD root_x 0 < d2.rank.getD root_y 0 then
          some (true, ⟨d2.parent.set root_x root_y, d2.rank⟩)
        else if d2.rank.getD root_y 0 < d2.rank.getD root_x 0 then
          some (true, ⟨d2.parent.set root_y root_x, d2.rank⟩)
        else
          some (true, ⟨d2.parent.set root_y root_x,
                        d2.rank.set root_x (d2.rank.getD root_x 0 + 1)⟩)
      else
        some (false, d2)

/-- The weight-key comparison used by
`sorted(edge_list, key=lambda item: item[2])`. -/
def edgeLe (a b : Edge) : Prop :=
  a.2.2 ≤ b.2.2

instance : DecidableRel edgeLe := fun a b => inferInstanceAs (Decidable (a.2.2 ≤ b.2.2))

/-- `sorted(edge_list, key=lambda item: item[2])` (`src/final.py` line 47):
Python's sort is stable, so it is embedded as the stable insertion sort
keyed on the weight. -/
def sortEdges (edge_list : List Edge) : List Edge :=
  List.insertionSort edgeLe edge_list

/-- The `for node1, node2, weight in sorted_edge_list:` loop of
`kruskals_mst` (`src/final.py` lines 51–56), with the DSU state, the cost
accumulator and the selected-edge list threaded explicitly.  Returns
`none` only if a `DSU.find` runs out of fuel, which provably never
happens. -/
def kruskalsAux (num_vertices : Nat) :
    List Edge → DSU → ℚ → List Edge → Option (ℚ × List Edge)
  | [], _, mst_cost, mst_edges => some (mst_cost, mst_edges)
  | (node1, node2, weight) :: rest, dsu, mst_cost, mst_edges =>
    match dsu.union node1 node2 with
    | none => none
    | some (true, dsu1) =>
      if (mst_edges ++ [(node1, node2, weight)]).length = num_vertices - 1 then
        some (mst_cost + weight, mst_edges ++ [(node1, node2, weight)])
      else
        kruskalsAux num_vertices rest dsu1 (mst_cost + weight)
          (mst_edges ++ [(node1, node2, weight)])
    | some (false, dsu1) => kruskalsAux num_vertices rest dsu1 mst_cost mst_edges

/-- `kruskals_mst(num_vertices, edge_list)` (`src/final.py` lines 38–57). -/
def kruskals_mst (num_vertices : Nat) (edge_list : List Edge) :
    Option (ℚ × List Edge) :=
  kruskalsAux num_vertices (sortEdges edge_list) (DSU.create num_vertices) 0 []

/-- A `heapq` entry `(weight, source, dest)`. -/
abbrev HeapEntry : Type := ℚ × Nat × Nat

/-- Python tuple comparison `(w, u, v) <= (w', u', v')`: lexicographic. -/
def heapLe (a b : HeapEntry) : Bool :=
  decide (a.1 < b.1) ||
    (decide (a.1 = b.1) &&
      (decide (a.2.1 < b.2.1) ||
        (decide (a.2.1 = b.2.1) && decide (a.2.2 ≤ b.2.2))))

/-- The least tuple held in a nonempty heap: what `heapq.heappop` returns. -/
def heapMin (x : HeapEntry) (xs : List HeapEntry) : HeapEntry :=
  xs.foldl (fun acc y => if heapLe acc y then acc else y) x

/-- `heapq.heappop`: removes and returns a least element of the bag. -/
def heapPop : List HeapEntry → Option (HeapEntry × List HeapEntry)
  | [] => none
  | x :: xs => some (heapMin x xs, (x :: xs).erase (heapMin x xs))

/-- The mutable state of `prims_mst` (`src/final.py` lines 75–99): the
caller-owned adjacency list together with the locals `min_heap`,
`visited`, `mst_cost`, `mst_edges`.  The visited "set" is a list that is
only ever extended with elements not yet in it. -/
structure PrimState where
  adjList : AdjList
  minHeap : List HeapEntry
  visited : List Nat
  mstCost : ℚ
  mstEdges : List Edge
deriving Repr, DecidableEq

/-- State after lines 75–89 of `src/final.py`: `visited = {0}` and all
edges of the start vertex pushed. -/
def primInit (adj : AdjList) : PrimState :=
  { adjList := adj
    minHeap := (dictGet adj 0).map (fun p => (p.2, 0, p.1))
    visited := [0]
    mstCost := 0
    mstEdges := [] }

/-- One pass of the body of the `while` loop (`src/final.py` lines
92–104), given the popped entry and the remaining heap. -/
def primStep (s : PrimState) (w : ℚ) (u v : Nat) (rest : List HeapEntry) :
    PrimState :=
  if v ∈ s.visited then
    { s with minHeap := rest }
  else
    { s with
      minHeap := rest ++
        (((dictGet s.adjList v).filter
            (fun q => ¬ (q.1 ∈ s.visited ++ [v]))).map
          (fun q => (q.2, v, q.1)))
      visited := s.visited ++ [v]
      mstCost := s.mstCost + w
      mstEdges := s.mstEdges ++ [(u, v, w)] }

/-- `while min_heap and len(visited) < num_vertices:` (`src/final.py`
lines 92–104), with explicit fuel.  Returns the final state, or `none`
if the fuel runs out (`primRun_isSome` below shows the fuel chosen in
`primRun` never does). -/
def primLoop (num_vertices : Nat) : Nat → PrimState → Option PrimState
  | 0, _ => none
  | fuel + 1, s =>
    if s.visited.length < num_vertices then
      match heapPop s.minHeap with
      | none => some s
      | some ((w, u, v), rest) => primLoop num_vertices fuel (primStep s w u v rest)
    else
      some s

/-- Total number of adjacency entries: an upper bound on how many pushes
any one visit can perform. -/
def adjSize (adj : AdjList) : Nat :=
  (adj.map (fun p => p.2.length)).sum

/-- Fuel that provably suffices for `primLoop`. -/
def primFuel (num_vertices : Nat) (adj : AdjList) : Nat :=
  (dictGet adj 0).length + num_vertices * (adjSize adj + 1) + 1

/-- The whole loop of `prims_mst` starting from the seeded state. -/
def primRun (num_vertices : Nat) (adj : AdjList) : Option PrimState :=
  primLoop num_vertices (primFuel num_vertices adj) (primInit adj)

/-- `prims_mst(num_vertices, adj_list)` (`src/final.py` lines 60–106).
The `none` branch of the match is dead code (`primRun_isSome`). -/
def prims_mst (num_vertices : Nat) (adj : AdjList) : ℚ × List Edge :=
  if num_vertices = 0 then (0, [])
  else
    match primRun num_vertices adj with
    | some s => (s.mstCost, s.mstEdges)
    | none => (0, [])

/-- The adjacency-list construction of `src/final.py`'s `main` (lines
135–149): `adj_list = {i: [] for i in range(num_vertices)}` followed by,
for each edge `[u, v, w]` of the edge list in order,
`adj_list[u].append((v, w)); adj_list[v].append((u, w))`.
`dictSnoc` is `adj_list[k].append(entry)`. -/
def dictSnoc (adj : AdjList) (k : Nat) (e : AdjEntry) : AdjList :=
  adj.map (fun p => if p.1 = k then (p.1, p.2 ++ [e]) else p)

/-- Folding one edge row into the adjacency dict. -/
def addEdgeToAdj (adj : AdjList) (e : Edge) : AdjList :=
  dictSnoc (dictSnoc adj e.1 (e.2.1, e.2.2)) e.2.1 (e.1, e.2.2)

/-- `buildAdj num_vertices edge_list`: the symmetric adjacency list the
`main` of `src/final.py` hands to `prims_mst`. -/
def buildAdj (num_vertices : Nat) (edge_list : List Edge) : AdjList :=
  edge_list.foldl addEdgeToAdj ((List.range num_vertices).map (fun i => (i, [])))

/-- The root of the parent chain starting at `i`, with fuel. -/
def rootAux : Nat → List Nat → Nat → Option Nat
  | 0, _, _ => none
  | fuel + 1, p, i => if pget p i = i then some i else rootAux fuel p (pget p i)

/-- `i`'s parent chain terminates at the root `r`. -/
def ReachesRoot (p : List Nat) (i r : Nat) : Prop :=
  ∃ fuel, rootAux fuel p i = some r

/-- Invariant on a parent array `p` with rank array `rk`. -/
def PInv (p rk : List Nat) : Prop :=
  ∀ i, i < p.length →
    pget p i < p.length ∧ (pget p i ≠ i → rk.getD i 0 < rk.getD (pget p i) 0)

/-- Well-formedness of a DSU state. -/
def DSU.WF (d : DSU) : Prop :=
  d.rank.length = d.parent.length ∧ PInv d.parent d.rank

/-- The number of elements of strictly larger rank than `i`: a measure
that strictly decreases along every parent chain. -/
def above (p rk : List Nat) (i : Nat) : Nat :=
  (List.range p.length).countP (fun j => rk.getD i 0 < rk.getD j 0)

/-- The canonical root: the one `rootAux` finds with the standard fuel. -/
def droot (p : List Nat) (i : Nat) : Option Nat :=
  rootAux (p.length + 1) p i

/-- Which set each element belongs to: `a` and `b` have a common root. -/
def sameRoot (p : List Nat) (a b : Nat) : Prop :=
  ∃ s, ReachesRoot p a s ∧ ReachesRoot p b s

/-- `SameSet d a b`: `a` and `b` are in the same DSU set. -/
def DSU.SameSet (d : DSU) (a b : Nat) : Prop :=
  sameRoot d.parent a b

/-- Number of roots: the number of distinct sets of the partition. -/
def rootCount (d : DSU) : Nat :=
  (List.range d.parent.length).countP (fun i => pget d.parent i = i)

/-- DSU states reachable from `DSU.__init__(n)` by any sequence of
`find`/`union` calls on valid indices. -/
inductive DSU.Reachable (n : Nat) : DSU → Prop
  | create : DSU.Reachable n (DSU.create n)
  | find {d d' : DSU} {i r : Nat} : DSU.Reachable n d → i < n →
      d.find i = some (r, d') → DSU.Reachable n d'
  | union {d d' : DSU} {x y : Nat} {b : Bool} : DSU.Reachable n d →
      x < n → y < n → d.union x y = some (b, d') → DSU.Reachable n d'

/-- The edge list of the spec's concrete scenario. -/
def concreteEdges : List Edge :=
  [(0, 1, 1), (1, 2, 2), (2, 3, 3), (0, 3, 10), (0, 2, 4)]

/-- The state reached from `DSU(4)` by `union(0,1); union(2,3); union(1,3)`. -/
def dsuC4 : DSU := ⟨[0, 0, 0, 2], [3, 1, 2, 1]⟩

/-- The state after one more `union(3, 0)`. -/
def dsuC4' : DSU := ⟨[0, 0, 0, 0], [3, 1, 2, 1]⟩

/-- Lookup in the dictionary
`map_id_to_idx = {original_id: i for i, original_id in enumerate(all_node_ids)}`
(`src/final.py` line 131).  `all_node_ids` is the list of distinct node
ids in Python's set-iteration order; ids absent from it raise `KeyError`
in Python, embedded as `none`. -/
def map_id_to_idx : List Nat → Nat → Option Nat
  | [], _ => none
  | a :: rest, x =>
    if a = x then some 0 else (map_id_to_idx rest x).map (· + 1)

/-- The `id_offset` fallback remapping of `src/index.py` (lines
103–118): detects 1-indexed (`1..n`) and 0-indexed (`0..n-1`) inputs and
otherwise subtracts the minimum id. -/
def id_offset (all_node_ids : List Nat) : Nat :=
  let min_id := all_node_ids.foldl min (all_node_ids.headD 0)
  let max_id := all_node_ids.foldl max 0
  let n := all_node_ids.length
  if min_id = 1 ∧ max_id = n then 1
  else if min_id = 0 ∧ max_id = n - 1 then 0
  else if min_id ≠ 0 then min_id
  else 0

/-- `remapped = original - id_offset` (`src/index.py` lines 129–130). -/
def offset_remap (all_node_ids : List Nat) (id0 : Nat) : Nat :=
  id0 - id_offset all_node_ids

/-- The body of `kruskals_mst` with the caller's `edge_list` tracked
explicitly.  The only access the source makes to the caller's list is
`sorted(edge_list, key=...)` (`src/final.py` line 47), which allocates a
fresh list; the loop then reads only that copy.  The second component is
the caller-owned list after the call. -/
def kruskals_mst_call (num_vertices : Nat) (edge_list : List Edge) :
    (Option (ℚ × List Edge)) × List Edge :=
  let sorted_edge_list := sortEdges edge_list
  (kruskalsAux num_vertices sorted_edge_list (DSU.create num_vertices) 0 [],
    edge_list)

/-- Each edge's source is the start vertex or the destination of an
earlier edge: the edge list grows a tree out of `seen`. -/
def RootedChain : List Nat → List Edge → Prop
  | _, [] => True
  | seen, e :: rest => e.1 ∈ seen ∧ RootedChain (seen ++ [e.2.1]) rest

/-- The C10 loop invariant: the visited list is the start vertex
followed by the destinations of the selected edges in order, without
repetition (so each selected destination was unvisited when selected and
receives at most one edge); every heap entry's source is visited; the
selected edges form a chain rooted at vertex 0; and the visited count
never exceeds `num_vertices`. -/
def PrimInv10 (num_vertices : Nat) (s : PrimState) : Prop :=
  s.visited = 0 :: s.mstEdges.map (fun e => e.2.1) ∧
  s.visited.Nodup ∧
  (∀ e ∈ s.minHeap, e.2.1 ∈ s.visited) ∧
  RootedChain [0] s.mstEdges ∧
  s.visited.length ≤ num_vertices

/-- `u` and `v` are joined by some edge of `E` (in either orientation). -/
def edgeAdj (E : List Edge) (u v : Nat) : Prop :=
  ∃ e ∈ E, (e.1 = u ∧ e.2.1 = v) ∨ (e.1 = v ∧ e.2.1 = u)

/-- Connectivity: the reflexive-transitive closure of adjacency. -/
def edgeConn (E : List Edge) : Nat → Nat → Prop :=
  Relation.ReflTransGen (edgeAdj E)

/-- Total weight of a list of edges. -/
def edgeWeightSum (l : List Edge) : ℚ :=
  (l.map (fun e => e.2.2)).sum

unseal Rat.add

/-- Directed adjacency as `prims_mst` reads it: `v` occurs in `u`'s
adjacency entry. -/
def adjRel (adj : AdjList) (u v : Nat) : Prop :=
  ∃ w, (v, w) ∈ dictGet adj u

/-- Reachability through adjacency entries. -/
def adjReach (adj : AdjList) : Nat → Nat → Prop :=
  Relation.ReflTransGen (adjRel adj)

/-- The Prim loop invariant used for C9: the caller's adjacency list is
untouched, the cost accumulator is the weight sum of the selected edges,
the visited list is duplicate-free, contains the start vertex, stays
within `[0, num_vertices)` and inside the reachable set; every heap
entry's source is visited and comes from the adjacency list; every
adjacency entry leading from a visited to an unvisited vertex has a
matching heap entry; and one edge is selected per visit. -/
def PrimInv9 (num_vertices : Nat) (adj : AdjList) (s : PrimState) : Prop :=
  s.adjList = adj ∧
  s.mstCost = edgeWeightSum s.mstEdges ∧
  s.visited.Nodup ∧
  0 ∈ s.visited ∧
  (∀ x ∈ s.visited, x < num_vertices) ∧
  (∀ x ∈ s.visited, adjReach adj 0 x) ∧
  (∀ e ∈ s.minHeap, e.2.1 ∈ s.visited ∧ (e.2.2, e.1) ∈ dictGet adj e.2.1) ∧
  (∀ u ∈ s.visited, ∀ p ∈ dictGet adj u, p.1 ∉ s.visited →
    (p.2, u, p.1) ∈ s.minHeap) ∧
  s.mstEdges.length + 1 = s.visited.length

/-- The same edge with its endpoints swapped. -/
def flipEdge (e : Edge) : Edge :=
  (e.2.1, e.1, e.2.2)

/-- `t` is one of the edges of `E`, in either orientation. -/
def EdgeOf (E : List Edge) (t : Edge) : Prop :=
  t ∈ E ∨ flipEdge t ∈ E

/-- A spanning set over the vertex range `[0, V)`: `V - 1` edges of the
graph that connect every pair of vertices.  (A connected subgraph with
`V - 1` edges is exactly a spanning tree.) -/
def SpanningSet (V : Nat) (E : List Edge) (T : List Edge) : Prop :=
  (∀ t ∈ T, EdgeOf E t) ∧ T.length = V - 1 ∧
  (∀ a b, a < V → b < V → edgeConn T a b)

/-- A minimum-weight spanning set. -/
def MinSpanning (V : Nat) (E : List Edge) (M : List Edge) : Prop :=
  SpanningSet V E M ∧
  ∀ T, SpanningSet V E T → edgeWeightSum M ≤ edgeWeightSum T

/-- All lists of the given length with entries from `u`. -/
def allLists {α : Type} : Nat → List α → List (List α)
  | 0, _ => [[]]
  | k + 1, u => (allLists k u).bind (fun l => u.map (fun a => a :: l))

/-- The edge `g` crosses the vertex cut `C`: one endpoint inside, one
outside. -/
def Crosses (C : Nat → Prop) (g : Edge) : Prop :=
  (C g.1 ∧ ¬ C g.2.1) ∨ (C g.2.1 ∧ ¬ C g.1)

instance : IsTotal Edge edgeLe :=
  ⟨fun a b => le_total a.2.2 b.2.2⟩

instance : IsTrans Edge edgeLe :=
  ⟨fun _ _ _ h1 h2 => le_trans h1 h2⟩

/-- The optimality invariant for the Prim loop, on top of `PrimInv9`:
the selected edges have both endpoints visited, are duplicate-free,
connect the start vertex to every visited vertex, and extend to a
minimum spanning set of the underlying edge list `E`. -/
def PrimOpt (V : Nat) (E : List Edge) (adj : AdjList) (s : PrimState) :
    Prop :=
  PrimInv9 V adj s ∧
  (∀ x ∈ s.mstEdges, x.1 ∈ s.visited ∧ x.2.1 ∈ s.visited) ∧
  s.mstEdges.Nodup ∧
  (∀ x ∈ s.visited, edgeConn s.mstEdges 0 x) ∧
  ∃ M, MinSpanning V E M ∧ ∀ x ∈ s.mstEdges, x ∈ M

/-! ## Theorems -/

theorem rootAux_mono {fuel fuel' : Nat} {p : List Nat} {i r : Nat}
    (h : rootAux fuel p i = some r) (hle : fuel ≤ fuel') :
    rootAux fuel' p i = some r := by
  induction fuel generalizing i fuel' with
  | zero => simp [rootAux] at h
  | succ n ih =>
    obtain ⟨m, rfl⟩ : ∃ m, fuel' = m + 1 := ⟨fuel' - 1, by omega⟩
    rw [rootAux] at h ⊢
    by_cases hp : pget p i = i
    · simpa [hp] using h
    · simp only [hp, if_neg] at h ⊢
      exact ih h (by omega)

theorem ReachesRoot.unique {p : List Nat} {i r s : Nat}
    (h1 : ReachesRoot p i r) (h2 : ReachesRoot p i s) : r = s := by
  obtain ⟨f1, h1⟩ := h1
  obtain ⟨f2, h2⟩ := h2
  have h1' := rootAux_mono h1 (Nat.le_max_left f1 f2)
  have h2' := rootAux_mono h2 (Nat.le_max_right f1 f2)
  rw [h1'] at h2'
  exact Option.some.inj h2'

theorem ReachesRoot.pget_self {p : List Nat} {i r : Nat}
    (h : ReachesRoot p i r) : pget p r = r := by
  obtain ⟨fuel, h⟩ := h
  induction fuel generalizing i with
  | zero => simp [rootAux] at h
  | succ n ih =>
    rw [rootAux] at h
    by_cases hp : pget p i = i
    · simp only [hp, if_pos] at h
      cases h; assumption
    · simp only [hp, if_neg] at h
      exact ih h

theorem reachesRoot_self {p : List Nat} {i : Nat} (h : pget p i = i) :
    ReachesRoot p i i :=
  ⟨1, by simp [rootAux, h]⟩

theorem reachesRoot_step {p : List Nat} {i r : Nat} (h : pget p i ≠ i)
    (hr : ReachesRoot p (pget p i) r) : ReachesRoot p i r := by
  obtain ⟨fuel, hf⟩ := hr
  exact ⟨fuel + 1, by simp [rootAux, h, hf]⟩

theorem reachesRoot_step_iff {p : List Nat} {i r : Nat} (h : pget p i ≠ i) :
    ReachesRoot p i r ↔ ReachesRoot p (pget p i) r := by
  constructor
  · rintro ⟨fuel, hf⟩
    cases fuel with
    | zero => simp [rootAux] at hf
    | succ n =>
      rw [rootAux] at hf
      simp only [h, if_neg] at hf
      exact ⟨n, hf⟩
  · exact reachesRoot_step h

theorem ReachesRoot.of_root {p : List Nat} {i r : Nat}
    (h : ReachesRoot p i r) (hi : pget p i = i) : r = i :=
  h.unique (reachesRoot_self hi)

theorem pget_lt {p : List Nat} {i : Nat} (h : i < p.length) :
    pget p i = p.get ⟨i, h⟩ := by
  simp [pget, List.getD_eq_getElem?_getD, List.getElem?_eq_getElem h]

theorem pget_set_eq {p : List Nat} {i v : Nat} (h : i < p.length) :
    pget (p.set i v) i = v := by
  simp [pget, List.getD_eq_getElem?_getD, List.getElem?_set_eq_of_lt _ h]

theorem pget_set_ne {p : List Nat} {i v j : Nat} (h : j ≠ i) :
    pget (p.set i v) j = pget p j := by
  simp [pget, List.getD_eq_getElem?_getD, List.getElem?_set_ne (Ne.symm h)]

theorem set_getD_self : ∀ (l : List Nat) (i d : Nat), i < l.length →
    l.set i (l.getD i d) = l
  | [], i, d, h => by simp at h
  | a :: l, 0, d, _ => by simp [List.getD]
  | a :: l, i + 1, d, h => by
    simp only [List.getD_cons_succ, List.set_cons_succ]
    rw [set_getD_self l i d (by simpa using h)]

theorem set_pget_self {p : List Nat} {i : Nat} (h : i < p.length) :
    p.set i (pget p i) = p :=
  set_getD_self p i i h

theorem countP_lt_of_mem {α : Type} {l : List α} {p q : α → Bool}
    (hpq : ∀ a ∈ l, p a = true → q a = true) {a : α} (ha : a ∈ l)
    (hqa : q a = true) (hpa : p a = false) : l.countP p < l.countP q := by
  induction l with
  | nil => simp at ha
  | cons b l ih =>
    rcases List.mem_cons.mp ha with rfl | hmem
    · have h1 : l.countP p ≤ l.countP q :=
        List.countP_mono_left (fun x hx => hpq x (List.mem_cons_of_mem _ hx))
      simp [List.countP_cons, hqa, hpa]
      omega
    · have h1 := ih (fun x hx => hpq x (List.mem_cons_of_mem _ hx)) hmem
      have h2 : (if p b = true then 1 else 0) ≤ (if q b = true then 1 else 0) := by
        by_cases hb : p b = true
        · simp [hb, hpq b (List.mem_cons_self _ _) hb]
        · simp [hb]
      simp only [List.countP_cons]
      omega

theorem above_parent_lt {p rk : List Nat} (hinv : PInv p rk) {i : Nat}
    (hi : i < p.length) (hne : pget p i ≠ i) :
    above p rk (pget p i) < above p rk i := by
  obtain ⟨hb, hr⟩ := hinv i hi
  apply countP_lt_of_mem (a := pget p i)
  · intro a _ ha
    have h1 : rk.getD (pget p i) 0 < rk.getD a 0 := by simpa using ha
    simp only [decide_eq_true_eq]
    exact lt_trans (hr hne) h1
  · exact List.mem_range.mpr hb
  · simpa using hr hne
  · simp

theorem above_lt_length {p rk : List Nat} {i : Nat} :
    above p rk i < p.length + 1 := by
  unfold above
  exact Nat.lt_succ_of_le (le_trans (List.countP_le_length _) (by simp))

/-- Along every parent chain the rank weakly increases, strictly unless
the chain is trivial. -/
theorem rank_le_root {p rk : List Nat} (hinv : PInv p rk) :
    ∀ fuel i r, i < p.length → rootAux fuel p i = some r →
      rk.getD i 0 ≤ rk.getD r 0 ∧ (i ≠ r → rk.getD i 0 < rk.getD r 0) := by
  intro fuel
  induction fuel with
  | zero => intro i r _ h; simp [rootAux] at h
  | succ n ih =>
    intro i r hi h
    rw [rootAux] at h
    by_cases hp : pget p i = i
    · simp only [hp, if_pos] at h
      cases h
      exact ⟨le_refl _, fun hne => absurd rfl hne⟩
    · simp only [hp, if_neg] at h
      obtain ⟨hb, hr⟩ := hinv i hi
      obtain ⟨h1, _⟩ := ih (pget p i) r hb h
      exact ⟨le_of_lt (lt_of_lt_of_le (hr hp) h1),
        fun _ => lt_of_lt_of_le (hr hp) h1⟩

/-- With enough fuel (`above` plus one suffices), `rootAux` succeeds on
every in-range node of a well-formed state. -/
theorem rootAux_total {p rk : List Nat} (hinv : PInv p rk) :
    ∀ fuel i, i < p.length → above p rk i < fuel →
      ∃ r, rootAux fuel p i = some r := by
  intro fuel
  induction fuel with
  | zero => intro i _ h; omega
  | succ n ih =>
    intro i hi hf
    by_cases hp : pget p i = i
    · exact ⟨i, by simp [rootAux, hp]⟩
    · have hb := (hinv i hi).1
      have hlt := above_parent_lt hinv hi hp
      obtain ⟨r, hr⟩ := ih (pget p i) hb (by omega)
      exact ⟨r, by simp [rootAux, hp, hr]⟩

theorem droot_eq_some {p rk : List Nat} (hinv : PInv p rk) {i : Nat}
    (hi : i < p.length) : ∃ r, droot p i = some r ∧ ReachesRoot p i r := by
  obtain ⟨r, hr⟩ := rootAux_total hinv (p.length + 1) i hi above_lt_length
  exact ⟨r, hr, ⟨_, hr⟩⟩

theorem ReachesRoot.lt_length {p : List Nat} {i r : Nat}
    (h : ReachesRoot p i r) {rk : List Nat} (hinv : PInv p rk)
    (hi : i < p.length) : r < p.length := by
  obtain ⟨fuel, h⟩ := h
  induction fuel generalizing i with
  | zero => simp [rootAux] at h
  | succ n ih =>
    rw [rootAux] at h
    by_cases hp : pget p i = i
    · simp only [hp, if_pos] at h
      cases h; exact hi
    · simp only [hp, if_neg] at h
      exact ih (hinv i hi).1 h

theorem findAux_spec {p rk : List Nat} (hinv : PInv p rk) :
    ∀ fuel i r p', i < p.length → findAux fuel p i = some (r, p') →
      p'.length = p.length ∧
      ReachesRoot p i r ∧
      pget p r = r ∧ r < p.length ∧
      pget p' i = r ∧
      (∀ j, pget p' j = pget p j ∨
        (pget p' j = r ∧ ReachesRoot p j r ∧ pget p j ≠ j ∧ j < p.length)) ∧
      (∀ j, (pget p' j = j ↔ pget p j = j)) := by
  intro fuel
  induction fuel with
  | zero => intro i r p' _ h; simp [findAux] at h
  | succ n ih =>
    intro i r p' hi h
    rw [findAux] at h
    by_cases hp : pget p i = i
    · rw [if_pos hp] at h
      injection h with h1
      cases h1
      exact ⟨rfl, reachesRoot_self hp, hp, hi, hp, fun j => Or.inl rfl,
        fun j => Iff.rfl⟩
    · rw [if_neg hp] at h
      cases heq : findAux n p (pget p i) with
      | none => rw [heq] at h; exact absurd h (by simp)
      | some v =>
        obtain ⟨r1, p1⟩ := v
        rw [heq] at h
        injection h with h1
        cases h1
        obtain ⟨hb, _⟩ := hinv i hi
        obtain ⟨hlen, hre, hroot, hrlt, hgi, hchar, hstat⟩ :=
          ih (pget p i) r p1 hb heq
        have hilen : i < p1.length := by omega
        have hre' : ReachesRoot p i r := reachesRoot_step hp hre
        refine ⟨by simpa using hlen, hre', hroot, hrlt,
          pget_set_eq hilen, ?_, ?_⟩
        · intro j
          by_cases hj : j = i
          · subst hj
            exact Or.inr ⟨pget_set_eq hilen, hre', hp, hi⟩
          · rw [pget_set_ne hj]
            exact hchar j
        · intro j
          by_cases hj : j = i
          · subst hj
            rw [pget_set_eq hilen]
            constructor
            · intro hri
              rw [← hri] at hp
              exact absurd (hri ▸ hroot) hp
            · intro hc; exact absurd hc hp
          · rw [pget_set_ne hj]
            exact hstat j

/-- Repointing nodes directly at (some of) their own roots does not
change which root any node reaches. -/
theorem reachesRoot_repoint {p p' : List Nat}
    (H : ∀ j, pget p' j = pget p j ∨ ReachesRoot p j (pget p' j)) :
    ∀ x s, ReachesRoot p x s ↔ ReachesRoot p' x s := by
  have fwd : ∀ fuel x s, rootAux fuel p x = some s → ReachesRoot p' x s := by
    intro fuel
    induction fuel with
    | zero => intro x s h; simp [rootAux] at h
    | succ n ih =>
      intro x s h
      rw [rootAux] at h
      by_cases hp : pget p x = x
      · rw [if_pos hp] at h
        injection h with h1
        cases h1
        rcases H x with h1 | h1
        · exact reachesRoot_self (h1.trans hp)
        · have h2 : pget p' x = x := h1.of_root hp
          exact reachesRoot_self h2
      · rw [if_neg hp] at h
        have hxs : ReachesRoot p x s := reachesRoot_step hp ⟨n, h⟩
        rcases H x with h1 | h1
        · have hne : pget p' x ≠ x := by rw [h1]; exact hp
          exact reachesRoot_step hne (h1 ▸ ih (pget p x) s h)
        · have heq : pget p' x = s := h1.unique hxs
          have hsroot : pget p s = s := hxs.pget_self
          have hs' : ReachesRoot p' s s := by
            rcases H s with h2 | h2
            · exact reachesRoot_self (h2.trans hsroot)
            · have h3 : pget p' s = s := h2.of_root hsroot
              exact reachesRoot_self h3
          by_cases hxx : x = s
          · rw [hxx]; exact hs'
          · have hne : pget p' x ≠ x := by rw [heq]; exact fun a => hxx a.symm
            exact reachesRoot_step hne (heq ▸ hs')
  have bwd : ∀ fuel x s, rootAux fuel p' x = some s → ReachesRoot p x s := by
    intro fuel
    induction fuel with
    | zero => intro x s h; simp [rootAux] at h
    | succ n ih =>
      intro x s h
      rw [rootAux] at h
      by_cases hp : pget p' x = x
      · rw [if_pos hp] at h
        injection h with h1
        cases h1
        rcases H x with h1 | h1
        · exact reachesRoot_self (h1 ▸ hp)
        · rw [hp] at h1; exact h1
      · rw [if_neg hp] at h
        have ihy := ih (pget p' x) s h
        rcases H x with h1 | h1
        · have hne : pget p x ≠ x := h1 ▸ hp
          exact reachesRoot_step hne (h1 ▸ ihy)
        · have hyroot : pget p (pget p' x) = pget p' x := h1.pget_self
          have hs : s = pget p' x := ihy.of_root hyroot
          rw [hs]; exact h1
  intro x s
  exact ⟨fun ⟨fuel, h⟩ => fwd fuel x s h, fun ⟨fuel, h⟩ => bwd fuel x s h⟩

/-- Attaching the root `a` beneath the distinct root `v` merges the two
classes and leaves the rest of the partition unchanged. -/
theorem reachesRoot_attach {p : List Nat} {a v : Nat}
    (ha : pget p a = a) (hv : pget p v = v) (hne : v ≠ a)
    (hlt : a < p.length) :
    ∀ x s, ReachesRoot (p.set a v) x s ↔
      ((ReachesRoot p x s ∧ s ≠ a) ∨ (ReachesRoot p x a ∧ s = v)) := by
  have hget_a : pget (p.set a v) a = v := pget_set_eq hlt
  have hget_ne : ∀ j, j ≠ a → pget (p.set a v) j = pget p j :=
    fun j hj => pget_set_ne hj
  have hvroot : pget (p.set a v) v = v := by
    rw [hget_ne v hne]; exact hv
  have fwd : ∀ fuel x s, rootAux fuel (p.set a v) x = some s →
      (ReachesRoot p x s ∧ s ≠ a) ∨ (ReachesRoot p x a ∧ s = v) := by
    intro fuel
    induction fuel with
    | zero => intro x s h; simp [rootAux] at h
    | succ n ih =>
      intro x s h
      rw [rootAux] at h
      by_cases hp : pget (p.set a v) x = x
      · rw [if_pos hp] at h
        injection h with h1
        cases h1
        have hxa : x ≠ a := by
          intro hx
          rw [hx, hget_a] at hp
          exact hne hp
        rw [hget_ne x hxa] at hp
        exact Or.inl ⟨reachesRoot_self hp, hxa⟩
      · rw [if_neg hp] at h
        by_cases hxa : x = a
        · rw [hxa, hget_a] at h
          have h1 : ReachesRoot (p.set a v) v s := ⟨n, h⟩
          have hsv : s = v := h1.of_root hvroot
          rw [hxa]
          exact Or.inr ⟨reachesRoot_self ha, hsv⟩
        · rw [hget_ne x hxa] at h hp
          rcases ih (pget p x) s h with ⟨h1, h2⟩ | ⟨h1, h2⟩
          · exact Or.inl ⟨reachesRoot_step hp h1, h2⟩
          · exact Or.inr ⟨reachesRoot_step hp h1, h2⟩
  have bwd1 : ∀ fuel x s, rootAux fuel p x = some s → s ≠ a →
      ReachesRoot (p.set a v) x s := by
    intro fuel
    induction fuel with
    | zero => intro x s h; simp [rootAux] at h
    | succ n ih =>
      intro x s h hs
      rw [rootAux] at h
      by_cases hp : pget p x = x
      · rw [if_pos hp] at h
        injection h with h1
        cases h1
        exact reachesRoot_self (by rw [hget_ne x hs]; exact hp)
      · rw [if_neg hp] at h
        have hxa : x ≠ a := by
          intro hx; rw [hx, ha] at hp; exact hp rfl
        have heq : pget (p.set a v) x = pget p x := hget_ne x hxa
        exact reachesRoot_step (by rw [heq]; exact hp) (heq ▸ ih (pget p x) s h hs)
  have bwd2 : ∀ fuel x, rootAux fuel p x = some a →
      ReachesRoot (p.set a v) x v := by
    intro fuel
    induction fuel with
    | zero => intro x h; simp [rootAux] at h
    | succ n ih =>
      intro x h
      rw [rootAux] at h
      by_cases hp : pget p x = x
      · rw [if_pos hp] at h
        injection h with h1
        rw [h1]
        have hstep : pget (p.set a v) a ≠ a := by
          rw [hget_a]; exact hne
        have hto : ReachesRoot (p.set a v) (pget (p.set a v) a) v := by
          rw [hget_a]; exact reachesRoot_self hvroot
        exact reachesRoot_step hstep hto
      · rw [if_neg hp] at h
        have hxa : x ≠ a := by
          intro hx; rw [hx, ha] at hp; exact hp rfl
        have heq : pget (p.set a v) x = pget p x := hget_ne x hxa
        exact reachesRoot_step (by rw [heq]; exact hp) (heq ▸ ih (pget p x) h)
  intro x s
  constructor
  · rintro ⟨fuel, h⟩; exact fwd fuel x s h
  · rintro (⟨⟨fuel, h⟩, hs⟩ | ⟨⟨fuel, h⟩, rfl⟩)
    · exact bwd1 fuel x s h hs
    · exact bwd2 fuel x h

theorem findAux_isSome {p : List Nat} :
    ∀ fuel i r, rootAux fuel p i = some r →
      ∃ p', findAux fuel p i = some (r, p') := by
  intro fuel
  induction fuel with
  | zero => intro i r h; simp [rootAux] at h
  | succ n ih =>
    intro i r h
    rw [rootAux] at h
    rw [findAux]
    by_cases hp : pget p i = i
    · rw [if_pos hp] at h
      injection h with h1
      rw [if_pos hp, h1]
      exact ⟨p, rfl⟩
    · rw [if_neg hp] at h
      rw [if_neg hp]
      obtain ⟨p1, hp1⟩ := ih (pget p i) r h
      rw [hp1]
      exact ⟨p1.set i r, rfl⟩

theorem sameRoot_symm {p : List Nat} {a b : Nat} (h : sameRoot p a b) :
    sameRoot p b a := by
  obtain ⟨s, h1, h2⟩ := h
  exact ⟨s, h2, h1⟩

theorem sameRoot_trans {p : List Nat} {a b c : Nat} (h1 : sameRoot p a b)
    (h2 : sameRoot p b c) : sameRoot p a c := by
  obtain ⟨s, ha, hb⟩ := h1
  obtain ⟨t, hb', hc⟩ := h2
  exact ⟨s, ha, (hb.unique hb') ▸ hc⟩

/-- Packaged specification of a successful `DSU.find` on a well-formed
state: it returns the root of `i`, compresses `i`'s path, keeps the rank
array, the partition, the root set and well-formedness. -/
theorem DSU.find_spec {d : DSU} (hwf : d.WF) {i : Nat}
    (hi : i < d.parent.length) :
    ∃ r d', d.find i = some (r, d') ∧
      d'.rank = d.rank ∧
      d'.parent.length = d.parent.length ∧
      d'.WF ∧
      ReachesRoot d.parent i r ∧
      pget d.parent r = r ∧ r < d.parent.length ∧
      pget d'.parent i = r ∧
      (∀ x s, ReachesRoot d'.parent x s ↔ ReachesRoot d.parent x s) ∧
      (∀ j, (pget d'.parent j = j ↔ pget d.parent j = j)) := by
  obtain ⟨hrklen, hinv⟩ := hwf
  obtain ⟨r, hr⟩ := rootAux_total hinv (d.parent.length + 1) i hi above_lt_length
  obtain ⟨p', hp'⟩ := findAux_isSome (d.parent.length + 1) i r hr
  obtain ⟨hlen, hre, hroot, hrlt, hgi, hchar, hstat⟩ :=
    findAux_spec hinv (d.parent.length + 1) i r p' hi hp'
  have hrep : ∀ j, pget p' j = pget d.parent j ∨
      ReachesRoot d.parent j (pget p' j) := by
    intro j
    rcases hchar j with h1 | ⟨h1, h2, _, _⟩
    · exact Or.inl h1
    · exact Or.inr (h1 ▸ h2)
  have hiff := reachesRoot_repoint hrep
  have hinv' : PInv p' d.rank := by
    intro j hj
    rw [hlen] at hj
    rcases hchar j with h1 | ⟨h1, h2, h3, _⟩
    · obtain ⟨hb, hrk⟩ := hinv j hj
      rw [hlen, h1]
      exact ⟨hb, fun hne => hrk (h1 ▸ hne)⟩
    · have hjr : j ≠ r := by
        intro hjr
        rw [hjr] at h3
        exact h3 hroot
      obtain ⟨f, hf⟩ := h2
      have := (rank_le_root hinv f j r hj hf).2 hjr
      rw [hlen, h1]
      exact ⟨hrlt, fun _ => this⟩
  refine ⟨r, ⟨p', d.rank⟩, ?_, rfl, hlen, ⟨by simpa [hlen] using hrklen, hinv'⟩,
    hre, hroot, hrlt, hgi, fun x s => (hiff x s).symm, hstat⟩
  unfold DSU.find
  rw [hp']

theorem countP_range_flip {n : Nat} {f g : Nat → Bool} {a : Nat} (ha : a < n)
    (hsame : ∀ j, j ≠ a → f j = g j) (hga : g a = true) (hfa : f a = false) :
    (List.range n).countP f + 1 = (List.range n).countP g := by
  induction n with
  | zero => omega
  | succ m ih =>
    rw [List.range_succ, List.countP_append, List.countP_append]
    by_cases hm : a = m
    · have hcongr : (List.range m).countP f = (List.range m).countP g := by
        apply List.countP_congr
        intro j hj
        have : j ≠ a := by
          rw [hm]
          exact Nat.ne_of_lt (List.mem_range.mp hj)
        rw [hsame j this]
      rw [hcongr, ← hm]
      simp [List.countP_cons, hga, hfa]
    · have ham : a < m := by omega
      have := ih ham
      have hcongr : [m].countP f = [m].countP g := by
        simp [List.countP_cons, hsame m (fun h => hm h.symm)]
      omega

theorem getD_set_eq {l : List Nat} {i v d : Nat} (h : i < l.length) :
    (l.set i v).getD i d = v := by
  simp [List.getD_eq_getElem?_getD, List.getElem?_set_eq_of_lt _ h]

theorem getD_set_ne {l : List Nat} {i v j d : Nat} (h : j ≠ i) :
    (l.set i v).getD j d = l.getD j d := by
  simp [List.getD_eq_getElem?_getD, List.getElem?_set_ne (Ne.symm h)]

/-- Attaching `y`'s root below `x`'s root merges exactly the classes of
`x` and `y`. -/
theorem sameRoot_attach_char {p : List Nat} {x y rx ry : Nat}
    (hrx : ReachesRoot p x rx) (hry : ReachesRoot p y ry) (hne : rx ≠ ry)
    (hrylt : ry < p.length) :
    ∀ a b, sameRoot (p.set ry rx) a b ↔
      (sameRoot p a b ∨ (sameRoot p a x ∧ sameRoot p y b) ∨
        (sameRoot p a y ∧ sameRoot p x b)) := by
  have hrootx : pget p rx = rx := hrx.pget_self
  have hrooty : pget p ry = ry := hry.pget_self
  have hchar := reachesRoot_attach hrooty hrootx hne hrylt
  intro a b
  constructor
  · rintro ⟨s, has, hbs⟩
    rcases (hchar a s).mp has with ⟨ha1, ha2⟩ | ⟨ha1, ha2⟩ <;>
      rcases (hchar b s).mp hbs with ⟨hb1, hb2⟩ | ⟨hb1, hb2⟩
    · exact Or.inl ⟨s, ha1, hb1⟩
    · rw [hb2] at ha1
      exact Or.inr (Or.inl ⟨⟨rx, ha1, hrx⟩, ⟨ry, hry, hb1⟩⟩)
    · rw [ha2] at hb1
      exact Or.inr (Or.inr ⟨⟨ry, ha1, hry⟩, ⟨rx, hrx, hb1⟩⟩)
    · exact Or.inl ⟨ry, ha1, hb1⟩
  · rintro (⟨s, has, hbs⟩ | ⟨⟨s, has, hxs⟩, ⟨t, hyt, hbt⟩⟩ |
      ⟨⟨s, has, hys⟩, ⟨t, hxt, hbt⟩⟩)
    · by_cases hs : s = ry
      · subst hs
        exact ⟨rx, (hchar a rx).mpr (Or.inr ⟨has, rfl⟩),
          (hchar b rx).mpr (Or.inr ⟨hbs, rfl⟩)⟩
      · exact ⟨s, (hchar a s).mpr (Or.inl ⟨has, hs⟩),
          (hchar b s).mpr (Or.inl ⟨hbs, hs⟩)⟩
    · rw [hxs.unique hrx] at has
      rw [hyt.unique hry] at hbt
      exact ⟨rx, (hchar a rx).mpr (Or.inl ⟨has, hne⟩),
        (hchar b rx).mpr (Or.inr ⟨hbt, rfl⟩)⟩
    · rw [hys.unique hry] at has
      rw [hxt.unique hrx] at hbt
      exact ⟨rx, (hchar a rx).mpr (Or.inr ⟨has, rfl⟩),
        (hchar b rx).mpr (Or.inl ⟨hbt, hne⟩)⟩

theorem sameRoot_iff_of_reaches_iff {p q : List Nat}
    (h : ∀ a s, ReachesRoot p a s ↔ ReachesRoot q a s) :
    ∀ a b, sameRoot p a b ↔ sameRoot q a b := by
  intro a b
  constructor
  · rintro ⟨s, h1, h2⟩; exact ⟨s, (h a s).mp h1, (h b s).mp h2⟩
  · rintro ⟨s, h1, h2⟩; exact ⟨s, (h a s).mpr h1, (h b s).mpr h2⟩

theorem rootCount_eq_of_status {d d' : DSU}
    (hlen : d'.parent.length = d.parent.length)
    (hstat : ∀ j, (pget d'.parent j = j ↔ pget d.parent j = j)) :
    rootCount d' = rootCount d := by
  unfold rootCount
  rw [hlen]
  apply List.countP_congr
  intro j _
  simpa using hstat j

/-- `union` when `x` and `y` have different roots (`src/final.py` lines
27–35): returns `True`, keeps well-formedness, merges exactly the classes
of `x` and `y`, and decreases the number of roots by one. -/
theorem DSU.union_merge {d : DSU} (hwf : d.WF) {x y rx ry : Nat}
    (hx : x < d.parent.length) (hy : y < d.parent.length)
    (hrx : ReachesRoot d.parent x rx) (hry : ReachesRoot d.parent y ry)
    (hne : rx ≠ ry) :
    ∃ d', d.union x y = some (true, d') ∧ d'.WF ∧
      d'.parent.length = d.parent.length ∧
      (∀ a b, d'.SameSet a b ↔ (d.SameSet a b ∨
        (d.SameSet a x ∧ d.SameSet y b) ∨ (d.SameSet a y ∧ d.SameSet x b))) ∧
      rootCount d' + 1 = rootCount d ∧
      d'.SameSet x y := by
  obtain ⟨r1, d1, hfind1, hrk1, hlen1, hwf1, hre1, hroot1, hrlt1, hgi1,
    hiff1, hstat1⟩ := DSU.find_spec hwf hx
  have e1 : rx = r1 := hrx.unique hre1
  subst e1
  have hy1 : y < d1.parent.length := by omega
  obtain ⟨r2, d2, hfind2, hrk2, hlen2, hwf2, hre2, hroot2, hrlt2, hgi2,
    hiff2, hstat2⟩ := DSU.find_spec hwf1 hy1
  have e2 : ry = r2 := hry.unique ((hiff1 y r2).mp hre2)
  subst e2
  have hiff : ∀ a s, ReachesRoot d2.parent a s ↔ ReachesRoot d.parent a s :=
    fun a s => (hiff2 a s).trans (hiff1 a s)
  have hstat : ∀ j, (pget d2.parent j = j ↔ pget d.parent j = j) :=
    fun j => (hstat2 j).trans (hstat1 j)
  have hlen : d2.parent.length = d.parent.length := by omega
  have hrootx : pget d.parent rx = rx := hrx.pget_self
  have hrooty : pget d.parent ry = ry := hry.pget_self
  have hrx2 : ReachesRoot d2.parent x rx := (hiff x rx).mpr hrx
  have hry2 : ReachesRoot d2.parent y ry := (hiff y ry).mpr hry
  have hrxlt : rx < d2.parent.length := by
    rw [hlen]; exact hrx.lt_length hwf.2 hx
  have hrylt : ry < d2.parent.length := by
    rw [hlen]; exact hry.lt_length hwf.2 hy
  have hrootx2 : pget d2.parent rx = rx := (hstat rx).mpr hrootx
  have hrooty2 : pget d2.parent ry = ry := (hstat ry).mpr hrooty
  have hsame2 : ∀ a b, sameRoot d2.parent a b ↔ sameRoot d.parent a b :=
    sameRoot_iff_of_reaches_iff hiff
  have hrklen2 : d2.rank.length = d2.parent.length := hwf2.1
  have hunion : d.union x y =
      (if d2.rank.getD rx 0 < d2.rank.getD ry 0 then
        some (true, ⟨d2.parent.set rx ry, d2.rank⟩)
      else if d2.rank.getD ry 0 < d2.rank.getD rx 0 then
        some (true, ⟨d2.parent.set ry rx, d2.rank⟩)
      else
        some (true, ⟨d2.parent.set ry rx,
          d2.rank.set rx (d2.rank.getD rx 0 + 1)⟩)) := by
    simp only [DSU.union, hfind1, hfind2]
    rw [if_pos hne]
  by_cases hcmp1 : d2.rank.getD rx 0 < d2.rank.getD ry 0
  · -- parent[root_x] = root_y
    rw [if_pos hcmp1] at hunion
    refine ⟨_, hunion, ⟨?_, ?_⟩, ?_, ?_, ?_, ?_⟩
    · simp only [List.length_set]
      omega
    · intro j hj
      simp only [List.length_set] at hj ⊢
      by_cases hjx : j = rx
      · rw [hjx, pget_set_eq hrxlt]
        exact ⟨hrylt, fun _ => hcmp1⟩
      · rw [pget_set_ne hjx]
        exact hwf2.2 j hj
    · simpa using hlen
    · intro a b
      have hch := sameRoot_attach_char hry2 hrx2 (Ne.symm hne) hrxlt a b
      show sameRoot ((d2.parent.set rx ry)) a b ↔
        (sameRoot d.parent a b ∨ (sameRoot d.parent a x ∧ sameRoot d.parent y b) ∨
          (sameRoot d.parent a y ∧ sameRoot d.parent x b))
      rw [hch, hsame2 a b, hsame2 a y, hsame2 x b, hsame2 a x, hsame2 y b]
      tauto
    · have hflip := countP_range_flip (n := d.parent.length)
        (f := fun i => decide (pget (d2.parent.set rx ry) i = i))
        (g := fun i => decide (pget d.parent i = i))
        (a := rx) (by omega) ?_ ?_ ?_
      · unfold rootCount
        simp only [List.length_set, hlen]
        exact hflip
      · intro j hj
        rw [decide_eq_decide, pget_set_ne hj]
        exact hstat j
      · simp [hrootx]
      · simp [pget_set_eq hrxlt]
        exact Ne.symm hne
    · have hch := sameRoot_attach_char hry2 hrx2 (Ne.symm hne) hrxlt x y
      show sameRoot ((d2.parent.set rx ry)) x y
      rw [hch]
      exact Or.inr (Or.inr ⟨⟨rx, hrx2, hrx2⟩, ⟨ry, hry2, hry2⟩⟩)
  · rw [if_neg hcmp1] at hunion
    by_cases hcmp2 : d2.rank.getD ry 0 < d2.rank.getD rx 0
    · -- parent[root_y] = root_x
      rw [if_pos hcmp2] at hunion
      refine ⟨_, hunion, ⟨?_, ?_⟩, ?_, ?_, ?_, ?_⟩
      · simp only [List.length_set]
        omega
      · intro j hj
        simp only [List.length_set] at hj ⊢
        by_cases hjy : j = ry
        · rw [hjy, pget_set_eq hrylt]
          exact ⟨hrxlt, fun _ => hcmp2⟩
        · rw [pget_set_ne hjy]
          exact hwf2.2 j hj
      · simpa using hlen
      · intro a b
        have hch := sameRoot_attach_char hrx2 hry2 hne hrylt a b
        show sameRoot ((d2.parent.set ry rx)) a b ↔
          (sameRoot d.parent a b ∨ (sameRoot d.parent a x ∧ sameRoot d.parent y b) ∨
            (sameRoot d.parent a y ∧ sameRoot d.parent x b))
        rw [hch, hsame2 a b, hsame2 a x, hsame2 y b, hsame2 a y, hsame2 x b]
      · have hflip := countP_range_flip (n := d.parent.length)
          (f := fun i => decide (pget (d2.parent.set ry rx) i = i))
          (g := fun i => decide (pget d.parent i = i))
          (a := ry) (by omega) ?_ ?_ ?_
        · unfold rootCount
          simp only [List.length_set, hlen]
          exact hflip
        · intro j hj
          rw [decide_eq_decide, pget_set_ne hj]
          exact hstat j
        · simp [hrooty]
        · simp [pget_set_eq hrylt]
          exact hne
      · have hch := sameRoot_attach_char hrx2 hry2 hne hrylt x y
        show sameRoot ((d2.parent.set ry rx)) x y
        rw [hch]
        exact Or.inr (Or.inl ⟨⟨rx, hrx2, hrx2⟩, ⟨ry, hry2, hry2⟩⟩)
    · -- equal ranks: parent[root_y] = root_x, rank[root_x] += 1
      rw [if_neg hcmp2] at hunion
      have hrxrk : rx < d2.rank.length := by omega
      refine ⟨_, hunion, ⟨?_, ?_⟩, ?_, ?_, ?_, ?_⟩
      · simp only [List.length_set]
        omega
      · intro j hj
        simp only [List.length_set] at hj ⊢
        by_cases hjy : j = ry
        · rw [hjy, pget_set_eq hrylt]
          refine ⟨hrxlt, fun _ => ?_⟩
          rw [getD_set_eq hrxrk, getD_set_ne (Ne.symm hne)]
          omega
        · rw [pget_set_ne hjy]
          obtain ⟨hb, hrkc⟩ := hwf2.2 j hj
          refine ⟨hb, fun hne2 => ?_⟩
          have h1 := hrkc hne2
          by_cases hjrx : j = rx
          · rw [hjrx, hrootx2] at hne2
            exact absurd rfl hne2
          · rw [getD_set_ne hjrx]
            by_cases htrx : pget d2.parent j = rx
            · rw [htrx, getD_set_eq hrxrk]
              rw [htrx] at h1
              omega
            · rw [getD_set_ne htrx]
              exact h1
      · simpa using hlen
      · intro a b
        have hch := sameRoot_attach_char hrx2 hry2 hne hrylt a b
        show sameRoot ((d2.parent.set ry rx)) a b ↔
          (sameRoot d.parent a b ∨ (sameRoot d.parent a x ∧ sameRoot d.parent y b) ∨
            (sameRoot d.parent a y ∧ sameRoot d.parent x b))
        rw [hch, hsame2 a b, hsame2 a x, hsame2 y b, hsame2 a y, hsame2 x b]
      · have hflip := countP_range_flip (n := d.parent.length)
          (f := fun i => decide (pget (d2.parent.set ry rx) i = i))
          (g := fun i => decide (pget d.parent i = i))
          (a := ry) (by omega) ?_ ?_ ?_
        · unfold rootCount
          simp only [List.length_set, hlen]
          exact hflip
        · intro j hj
          rw [decide_eq_decide, pget_set_ne hj]
          exact hstat j
        · simp [hrooty]
        · simp [pget_set_eq hrylt]
          exact hne
      · have hch := sameRoot_attach_char hrx2 hry2 hne hrylt x y
        show sameRoot ((d2.parent.set ry rx)) x y
        rw [hch]
        exact Or.inr (Or.inl ⟨⟨rx, hrx2, hrx2⟩, ⟨ry, hry2, hry2⟩⟩)

/-- `union` when `x` and `y` are already in the same set (`src/final.py`
line 36): returns `False`; the rank array and the partition (and the set
of roots) are untouched, though the two `find` calls may have compressed
paths inside the parent array. -/
theorem DSU.union_noop {d : DSU} (hwf : d.WF) {x y r : Nat}
    (hx : x < d.parent.length) (hy : y < d.parent.length)
    (hrx : ReachesRoot d.parent x r) (hry : ReachesRoot d.parent y r) :
    ∃ d', d.union x y = some (false, d') ∧ d'.WF ∧ d'.rank = d.rank ∧
      d'.parent.length = d.parent.length ∧
      (∀ a s, ReachesRoot d'.parent a s ↔ ReachesRoot d.parent a s) ∧
      (∀ j, (pget d'.parent j = j ↔ pget d.parent j = j)) := by
  obtain ⟨r1, d1, hfind1, hrk1, hlen1, hwf1, hre1, hroot1, hrlt1, hgi1,
    hiff1, hstat1⟩ := DSU.find_spec hwf hx
  have e1 : r = r1 := hrx.unique hre1
  subst e1
  have hy1 : y < d1.parent.length := by omega
  obtain ⟨r2, d2, hfind2, hrk2, hlen2, hwf2, hre2, hroot2, hrlt2, hgi2,
    hiff2, hstat2⟩ := DSU.find_spec hwf1 hy1
  have e2 : r = r2 := hry.unique ((hiff1 y r2).mp hre2)
  subst e2
  refine ⟨d2, ?_, hwf2, by rw [hrk2, hrk1], by omega,
    fun a s => (hiff2 a s).trans (hiff1 a s),
    fun j => (hstat2 j).trans (hstat1 j)⟩
  simp only [DSU.union, hfind1, hfind2]
  rw [if_neg (by simp)]

/-- `DSU.create n` is well-formed: every node is a root. -/
theorem DSU.create_wf (n : Nat) : (DSU.create n).WF := by
  constructor
  · simp [DSU.create]
  · intro i hi
    simp only [DSU.create] at hi ⊢
    have : pget (List.range n) i = i := by
      simp only [pget]
      rw [List.getD_eq_getElem?_getD]
      simp at hi
      simp [List.getElem?_range hi]
    rw [this]
    simp at hi
    exact ⟨by simpa using hi, fun h => absurd rfl h⟩

/-- In `DSU.create n` every in-range node is its own root. -/
theorem create_reaches (n : Nat) {i : Nat} :
    ReachesRoot (DSU.create n).parent i i := by
  apply reachesRoot_self
  by_cases hi : i < n
  · simp only [DSU.create, pget]
    rw [List.getD_eq_getElem?_getD]
    simp [List.getElem?_range hi]
  · simp only [DSU.create, pget]
    rw [List.getD_eq_getElem?_getD]
    have : (List.range n)[i]? = none := by
      simp [List.getElem?_eq_none_iff]
      omega
    simp [this]

/-- In `DSU.create n`, distinct elements are in distinct sets. -/
theorem create_not_sameSet {n : Nat} {a b : Nat} (hne : a ≠ b) :
    ¬ (DSU.create n).SameSet a b := by
  rintro ⟨s, h1, h2⟩
  have e1 : s = a := h1.of_root (by
    have := create_reaches n (i := a)
    exact this.pget_self)
  have e2 : s = b := h2.of_root (by
    have := create_reaches n (i := b)
    exact this.pget_self)
  omega

theorem rootCount_create (n : Nat) : rootCount (DSU.create n) = n := by
  unfold rootCount
  have hlen : (DSU.create n).parent.length = n := by simp [DSU.create]
  rw [hlen]
  have hstep : List.countP
      (fun i => decide (pget (DSU.create n).parent i = i)) (List.range n) =
      List.countP (fun _ => true) (List.range n) := by
    apply List.countP_congr
    intro a ha
    have hi : a < n := List.mem_range.mp ha
    have : pget (DSU.create n).parent a = a := by
      simp only [DSU.create, pget]
      rw [List.getD_eq_getElem?_getD]
      simp [List.getElem?_range hi]
    simp [this]
  rw [hstep]
  simp

/-- Every reachable state is well-formed and keeps its size. -/
theorem DSU.Reachable.wf {n : Nat} {d : DSU} (h : DSU.Reachable n d) :
    d.WF ∧ d.parent.length = n := by
  induction h with
  | create => exact ⟨DSU.create_wf n, by simp [DSU.create]⟩
  | find hreach hi hfind ih =>
    obtain ⟨hwf, hlen⟩ := ih
    rename_i d d' i r
    obtain ⟨r0, d0, hfind0, _, hlen0, hwf0, _⟩ :=
      DSU.find_spec hwf (show i < d.parent.length by omega)
    rw [hfind0] at hfind
    injection hfind with hfind
    injection hfind with h1 h2
    rw [← h2]
    exact ⟨hwf0, by omega⟩
  | union hreach hx hy hunion ih =>
    obtain ⟨hwf, hlen⟩ := ih
    rename_i d d' x y b
    obtain ⟨rx, hrx0, hrx⟩ := droot_eq_some hwf.2 (show x < d.parent.length by omega)
    obtain ⟨ry, hry0, hry⟩ := droot_eq_some hwf.2 (show y < d.parent.length by omega)
    by_cases hre : rx = ry
    · obtain ⟨d0, hu0, hwf0, _, hlen0, _⟩ :=
        DSU.union_noop hwf (by omega) (by omega) hrx (hre ▸ hry)
      rw [hu0] at hunion
      injection hunion with hunion
      injection hunion with h1 h2
      rw [← h2]
      exact ⟨hwf0, by omega⟩
    · obtain ⟨d0, hu0, hwf0, hlen0, _⟩ :=
        DSU.union_merge hwf (by omega) (by omega) hrx hry hre
      rw [hu0] at hunion
      injection hunion with hunion
      injection hunion with h1 h2
      rw [← h2]
      exact ⟨hwf0, by omega⟩

/-- After a `find` has installed `parent[i] = r` with `r` a root, another
`find i` returns the same root and leaves the state untouched. -/
theorem find_after_compress {d : DSU} {i r : Nat} (hi : i < d.parent.length)
    (hpi : pget d.parent i = r) (hpr : pget d.parent r = r) :
    d.find i = some (r, d) := by
  obtain ⟨f, hf⟩ : ∃ f, d.parent.length + 1 = f + 2 :=
    ⟨d.parent.length - 1, by omega⟩
  unfold DSU.find
  rw [hf]
  by_cases hir : i = r
  · have hroot : pget d.parent i = i := by rw [hpi, hir]
    rw [findAux, if_pos hroot]
    simp [hir]
  · have hnroot : ¬ pget d.parent i = i := by
      rw [hpi]; exact fun hc => hir hc.symm
    have hset : d.parent.set i r = d.parent := by
      rw [← hpi]; exact set_pget_self hi
    rw [findAux, if_neg hnroot, hpi, findAux, if_pos hpr]
    simp [hset]

/-- C2: on the concrete graph with vertices `{0, 1, 2, 3}` and edges
`(0,1,1), (1,2,2), (2,3,3), (0,3,10), (0,2,4)`, both `kruskals_mst` and
`prims_mst` (run on the symmetric adjacency list `main` builds from this
edge list) return total cost 6 with selected edges
`(0,1,1), (1,2,2), (2,3,3)`. -/
theorem claim_C2_concrete_scenario :
    kruskals_mst 4 concreteEdges =
      some (6, [(0, 1, 1), (1, 2, 2), (2, 3, 3)]) ∧
    prims_mst 4 (buildAdj 4 concreteEdges) =
      (6, [(0, 1, 1), (1, 2, 2), (2, 3, 3)]) := by
  constructor
  · decide
  · decide

/-- C3: on any DSU reachable from `DSU.__init__(n)`, for valid indices
`a`, `b` whose `find` roots differ, `union(a, b)` returns `True`, and
calling `find(a)` and then `find(b)` afterwards yields equal roots. -/
theorem claim_C3_union_merges {n : Nat} {d : DSU}
    (hreach : DSU.Reachable n d) {a b ra rb : Nat} {da db : DSU}
    (ha : a < n) (hb : b < n)
    (hfa : d.find a = some (ra, da)) (hfb : d.find b = some (rb, db))
    (hne : ra ≠ rb) :
    ∃ d' d1 d2 r1 r2, d.union a b = some (true, d') ∧
      d'.find a = some (r1, d1) ∧ d1.find b = some (r2, d2) ∧ r1 = r2 := by
  obtain ⟨hwf, hlen⟩ := hreach.wf
  obtain ⟨ra0, da0, hfa0, _, _, _, hrea0, _⟩ :=
    DSU.find_spec hwf (show a < d.parent.length by omega)
  rw [hfa0] at hfa
  injection hfa with hfa
  injection hfa with hra _
  obtain ⟨rb0, db0, hfb0, _, _, _, hreb0, _⟩ :=
    DSU.find_spec hwf (show b < d.parent.length by omega)
  rw [hfb0] at hfb
  injection hfb with hfb
  injection hfb with hrb _
  rw [hra] at hrea0
  rw [hrb] at hreb0
  obtain ⟨d', hu, hwf', hlen', hSame, _, hxy⟩ :=
    DSU.union_merge hwf (show a < d.parent.length by omega)
      (show b < d.parent.length by omega) hrea0 hreb0 hne
  obtain ⟨r1, d1, hf1, _, hlen1, hwf1, hre1, _, _, _, hiff1, _⟩ :=
    DSU.find_spec hwf' (show a < d'.parent.length by omega)
  obtain ⟨r2, d2, hf2, _, _, _, hre2, _⟩ :=
    DSU.find_spec hwf1 (show b < d1.parent.length by omega)
  obtain ⟨s, hs1, hs2⟩ := hxy
  refine ⟨d', d1, d2, r1, r2, hu, hf1, hf2, ?_⟩
  have e1 : r1 = s := (hre1.unique hs1)
  have e2 : r2 = s := (((hiff1 b r2).mp hre2).unique hs2)
  omega

/-- Amended C4: `union` on two elements that are already in the same set
returns `False`, leaves the rank array unchanged, and leaves the
partition (which element belongs to which set, and the set of roots)
unchanged — but the parent array itself may be rewritten by the path
compression that the two internal `find` calls perform. -/
theorem claim_C4_union_noop_frame {n : Nat} {d : DSU}
    (hreach : DSU.Reachable n d) {x y rx ry : Nat} {dx dy : DSU}
    (hx : x < n) (hy : y < n)
    (hfx : d.find x = some (rx, dx)) (hfy : d.find y = some (ry, dy))
    (heq : rx = ry) :
    ∃ d', d.union x y = some (false, d') ∧
      d'.rank = d.rank ∧
      (∀ a b, d'.SameSet a b ↔ d.SameSet a b) ∧
      (∀ j, (pget d'.parent j = j ↔ pget d.parent j = j)) := by
  obtain ⟨hwf, hlen⟩ := hreach.wf
  obtain ⟨rx0, dx0, hfx0, _, _, _, hrex0, _⟩ :=
    DSU.find_spec hwf (show x < d.parent.length by omega)
  rw [hfx0] at hfx
  injection hfx with hfx
  injection hfx with hrx _
  obtain ⟨ry0, dy0, hfy0, _, _, _, hrey0, _⟩ :=
    DSU.find_spec hwf (show y < d.parent.length by omega)
  rw [hfy0] at hfy
  injection hfy with hfy
  injection hfy with hry _
  rw [hrx] at hrex0
  rw [hry] at hrey0
  rw [heq] at hrex0
  obtain ⟨d', hu, hwf', hrk', hlen', hiff', hstat'⟩ :=
    DSU.union_noop hwf (show x < d.parent.length by omega)
      (show y < d.parent.length by omega) hrex0 hrey0
  exact ⟨d', hu, hrk', sameRoot_iff_of_reaches_iff hiff', hstat'⟩

/-- Counterexample to C4 as stated: `dsuC4` is reachable from `DSU(4)`
by three `union` calls; `find(3)` and `find(0)` both return root 0, yet
`union(3, 0)` — while returning `False` and keeping the rank array —
rewrites the parent array from `[0,0,0,2]` to `[0,0,0,0]` through path
compression, so `union` on same-set inputs does *not* leave the parent
array unchanged. -/
theorem claim_C4_counterexample :
    DSU.Reachable 4 dsuC4 ∧
    dsuC4.find 3 = some (0, dsuC4') ∧
    dsuC4.find 0 = some (0, dsuC4) ∧
    dsuC4.union 3 0 = some (false, dsuC4') ∧
    dsuC4'.parent ≠ dsuC4.parent := by
  refine ⟨?_, by decide, by decide, by decide, by decide⟩
  have h1 : DSU.Reachable 4 (⟨[0, 0, 2, 3], [2, 1, 1, 1]⟩ : DSU) :=
    DSU.Reachable.union (x := 0) (y := 1) (b := true) DSU.Reachable.create
      (by omega) (by omega) (by decide)
  have h2 : DSU.Reachable 4 (⟨[0, 0, 2, 2], [2, 1, 2, 1]⟩ : DSU) :=
    DSU.Reachable.union (x := 2) (y := 3) (b := true) h1
      (by omega) (by omega) (by decide)
  exact DSU.Reachable.union (x := 1) (y := 3) (b := true) h2
    (by omega) (by omega) (by decide)

/-- Amended C5: the DSU constructor does not validate its argument: for
every negative `n`, `DSU.__init__(n)` raises nothing and produces the
same empty DSU as `DSU.__init__(0)` (empty parent and rank arrays),
because `list(range(n))` and `[1] * n` are empty for negative `n`. -/
theorem claim_C5_negative_size_no_error (n : Int) (hn : n < 0) :
    DSU.init n = Except.ok (DSU.create 0) := by
  unfold DSU.init DSU.create
  rw [Int.toNat_of_nonpos (le_of_lt hn)]

/-- Counterexample to C5 as stated: at `n = -1` the constructor returns
an ordinary `DSU` value (no `InvalidArgument` error), namely the empty
DSU. -/
theorem claim_C5_counterexample :
    DSU.init (-1) = Except.ok (DSU.create 0) ∧
    ∀ e : String, DSU.init (-1) ≠ Except.error e := by
  constructor
  · rfl
  · intro e
    simp [DSU.init]

/-- Witness for C5's amended theorem at `n = -7`. -/
theorem claim_C5_witness :
    (-7 : Int) < 0 ∧ DSU.init (-7) = Except.ok (DSU.create 0) :=
  ⟨by decide, claim_C5_negative_size_no_error (-7) (by decide)⟩

/-- C6: on every DSU state reachable from `DSU.__init__(n)` by valid
`find`/`union` calls, `find(i)` of a valid index terminates with a root
(the embedded fuel `parent.length + 1` suffices, i.e. the parent chain
is acyclic), and an immediately repeated `find(i)` returns the same root
and leaves the state exactly as it was. -/
theorem claim_C6_find_terminates_idempotent {n : Nat} {d : DSU}
    (hreach : DSU.Reachable n d) {i : Nat} (hi : i < n) :
    ∃ r d', d.find i = some (r, d') ∧ d'.find i = some (r, d') := by
  obtain ⟨hwf, hlen⟩ := hreach.wf
  obtain ⟨r, d', hfind, hrk, hlen', hwf', hre, hroot, hrlt, hgi, hiff,
    hstat⟩ := DSU.find_spec hwf (show i < d.parent.length by omega)
  refine ⟨r, d', hfind, ?_⟩
  exact find_after_compress (by omega) hgi ((hstat r).mpr hroot)

/-- Witness for C3 at `DSU(2)`, `a = 0`, `b = 1`. -/
theorem claim_C3_witness :
    ∃ d' d1 d2 r1 r2, (DSU.create 2).union 0 1 = some (true, d') ∧
      d'.find 0 = some (r1, d1) ∧ d1.find 1 = some (r2, d2) ∧ r1 = r2 :=
  claim_C3_union_merges DSU.Reachable.create (by omega) (by omega)
    (show (DSU.create 2).find 0 = some (0, DSU.create 2) by decide)
    (show (DSU.create 2).find 1 = some (1, DSU.create 2) by decide)
    (by decide)

/-- Witness for the amended C4 at `DSU(2)`, `x = y = 0`. -/
theorem claim_C4_witness :
    ∃ d', (DSU.create 2).union 0 0 = some (false, d') ∧
      d'.rank = (DSU.create 2).rank ∧
      (∀ a b, d'.SameSet a b ↔ (DSU.create 2).SameSet a b) ∧
      (∀ j, (pget d'.parent j = j ↔ pget (DSU.create 2).parent j = j)) :=
  claim_C4_union_noop_frame DSU.Reachable.create (by omega) (by omega)
    (show (DSU.create 2).find 0 = some (0, DSU.create 2) by decide)
    (show (DSU.create 2).find 0 = some (0, DSU.create 2) by decide) rfl

/-- Witness for C6 at the reachable state `union(0,1)` of `DSU(3)`,
index 1. -/
theorem claim_C6_witness :
    ∃ r d', (⟨[0, 0, 2], [2, 1, 1]⟩ : DSU).find 1 = some (r, d') ∧
      d'.find 1 = some (r, d') :=
  claim_C6_find_terminates_idempotent (n := 3)
    (DSU.Reachable.union (x := 0) (y := 1) (b := true) DSU.Reachable.create
      (by omega) (by omega) (by decide))
    (by omega)

theorem map_id_to_idx_lt_length {ids : List Nat} {x k : Nat}
    (h : map_id_to_idx ids x = some k) : k < ids.length := by
  induction ids generalizing k with
  | nil => simp [map_id_to_idx] at h
  | cons a rest ih =>
    rw [map_id_to_idx] at h
    by_cases hax : a = x
    · rw [if_pos hax] at h
      injection h with h
      simp [← h]
    · rw [if_neg hax] at h
      cases heq : map_id_to_idx rest x with
      | none => rw [heq] at h; simp at h
      | some m =>
        rw [heq] at h
        injection h with h
        have := ih heq
        simp [← h]
        omega

theorem map_id_to_idx_mem {ids : List Nat} {x : Nat} (h : x ∈ ids) :
    ∃ k, map_id_to_idx ids x = some k := by
  induction ids with
  | nil => simp at h
  | cons a rest ih =>
    rw [map_id_to_idx]
    by_cases hax : a = x
    · exact ⟨0, by rw [if_pos hax]⟩
    · rcases List.mem_cons.mp h with h1 | h1
      · exact absurd h1.symm hax
      · obtain ⟨k, hk⟩ := ih h1
        exact ⟨k + 1, by rw [if_neg hax, hk]; rfl⟩

theorem map_id_to_idx_inj {ids : List Nat} {x y k : Nat}
    (hx : map_id_to_idx ids x = some k) (hy : map_id_to_idx ids y = some k) :
    x = y := by
  induction ids generalizing k with
  | nil => simp [map_id_to_idx] at hx
  | cons a rest ih =>
    rw [map_id_to_idx] at hx hy
    by_cases hax : a = x <;> by_cases hay : a = y
    · rw [← hax, ← hay]
    · rw [if_pos hax] at hx
      rw [if_neg hay] at hy
      injection hx with hx
      obtain ⟨m, hm, hmk⟩ := Option.map_eq_some'.mp hy
      have hmk' : m + 1 = k := hmk
      omega
    · rw [if_neg hax] at hx
      rw [if_pos hay] at hy
      injection hy with hy
      obtain ⟨m, hm, hmk⟩ := Option.map_eq_some'.mp hx
      have hmk' : m + 1 = k := hmk
      omega
    · rw [if_neg hax] at hx
      rw [if_neg hay] at hy
      obtain ⟨mx, hmx, hmxk⟩ := Option.map_eq_some'.mp hx
      obtain ⟨my, hmy, hmyk⟩ := Option.map_eq_some'.mp hy
      have hmxk' : mx + 1 = k := hmxk
      have hmyk' : my + 1 = k := hmyk
      have hmm : mx = my := by omega
      exact ih hmx (hmm ▸ hmy)

theorem map_id_to_idx_surj {ids : List Nat} (hnd : ids.Nodup) :
    ∀ k, k < ids.length → ∃ x ∈ ids, map_id_to_idx ids x = some k := by
  induction ids with
  | nil => intro k hk; simp at hk
  | cons a rest ih =>
    intro k hk
    cases k with
    | zero =>
      exact ⟨a, List.mem_cons_self _ _, by rw [map_id_to_idx, if_pos rfl]⟩
    | succ m =>
      obtain ⟨x, hxmem, hx⟩ := ih (List.nodup_cons.mp hnd).2 m (by simpa using hk)
      refine ⟨x, List.mem_cons_of_mem _ hxmem, ?_⟩
      have hax : a ≠ x := by
        intro hc
        exact (List.nodup_cons.mp hnd).1 (hc ▸ hxmem)
      rw [map_id_to_idx, if_neg hax, hx]
      rfl

/-- Amended C8: the dictionary-based remapper of `src/final.py`
(`map_id_to_idx`) maps the set of distinct input ids bijectively onto
the dense range `[0, V)`, `V` the number of distinct ids — for every
input, sparse or not.  (The offset-based fallback remapper of
`src/index.py` does not have this property on sparse inputs; see the
counterexample.) -/
theorem claim_C8_dict_remapper_bijective (ids : List Nat)
    (hnd : ids.Nodup) :
    (∀ x ∈ ids, ∃ k, map_id_to_idx ids x = some k ∧ k < ids.length) ∧
    (∀ x y k, map_id_to_idx ids x = some k → map_id_to_idx ids y = some k →
      x = y) ∧
    (∀ k, k < ids.length → ∃ x ∈ ids, map_id_to_idx ids x = some k) := by
  refine ⟨?_, ?_, map_id_to_idx_surj hnd⟩
  · intro x hx
    obtain ⟨k, hk⟩ := map_id_to_idx_mem hx
    exact ⟨k, hk, map_id_to_idx_lt_length hk⟩
  · intro x y k hx hy
    exact map_id_to_idx_inj hx hy

/-- Witness for the amended C8 at the sparse id list `[3, 7, 1]`. -/
theorem claim_C8_witness :
    (∀ x ∈ [3, 7, 1], ∃ k, map_id_to_idx [3, 7, 1] x = some k ∧ k < 3) ∧
    (∀ x y k, map_id_to_idx [3, 7, 1] x = some k →
      map_id_to_idx [3, 7, 1] y = some k → x = y) ∧
    (∀ k, k < 3 → ∃ x ∈ [3, 7, 1], map_id_to_idx [3, 7, 1] x = some k) :=
  claim_C8_dict_remapper_bijective [3, 7, 1] (by decide)

/-- Counterexample to C8 as stated: the `id_offset` remapper of
`src/index.py` is also a cited implementation of the Vertex Remapper,
and on the sparse input `{1, 5}` (V = 2 distinct ids) it subtracts the
minimum id 1, sending 5 to 4 — outside the dense range `[0, 2)`.  So
the remapping layer of the repository does not always map distinct ids
bijectively onto `[0, V)`. -/
theorem claim_C8_counterexample :
    id_offset [1, 5] = 1 ∧
    offset_remap [1, 5] 5 = 4 ∧
    ¬ offset_remap [1, 5] 5 < [1, 5].length := by
  refine ⟨by decide, by decide, by decide⟩

theorem primStep_adjList (s : PrimState) (w : ℚ) (u v : Nat)
    (rest : List HeapEntry) : (primStep s w u v rest).adjList = s.adjList := by
  unfold primStep
  by_cases hv : v ∈ s.visited
  · rw [if_pos hv]
  · rw [if_neg hv]

theorem primLoop_adjList (num_vertices : Nat) :
    ∀ fuel s s', primLoop num_vertices fuel s = some s' →
      s'.adjList = s.adjList := by
  intro fuel
  induction fuel with
  | zero => intro s s' h; simp [primLoop] at h
  | succ n ih =>
    intro s s' h
    rw [primLoop] at h
    by_cases hlt : s.visited.length < num_vertices
    · rw [if_pos hlt] at h
      cases hpop : heapPop s.minHeap with
      | none => rw [hpop] at h; injection h with h; rw [← h]
      | some v =>
        obtain ⟨⟨w, u, ve⟩, rest⟩ := v
        rw [hpop] at h
        have := ih _ _ h
        rw [this, primStep_adjList]
    · rw [if_neg hlt] at h
      injection h with h
      rw [← h]

/-- C7: neither engine mutates caller-owned graph data.  `kruskals_mst`
only reads `edge_list` through the fresh sorted copy, so the caller's
list after the call is the list passed in; `prims_mst` threads the
caller's adjacency list through its loop state untouched. -/
theorem claim_C7_no_mutation (num_vertices : Nat) (edge_list : List Edge)
    (adj : AdjList) :
    (kruskals_mst_call num_vertices edge_list).2 = edge_list ∧
    (kruskals_mst_call num_vertices edge_list).1 =
      kruskals_mst num_vertices edge_list ∧
    (∀ s', primRun num_vertices adj = some s' → s'.adjList = adj) := by
  refine ⟨rfl, rfl, ?_⟩
  intro s' h
  have := primLoop_adjList num_vertices _ _ _ h
  rw [this]
  rfl

/-- Witness for C7: the concrete C2 graph for Kruskal, and a one-vertex
adjacency list for Prim's loop. -/
theorem claim_C7_witness :
    (kruskals_mst_call 4 concreteEdges).2 = concreteEdges ∧
    ∃ s', primRun 1 [(0, [])] = some s' ∧ s'.adjList = [(0, [])] :=
  ⟨(claim_C7_no_mutation 4 concreteEdges []).1,
   ⟨primInit [(0, [])], by decide,
    (claim_C7_no_mutation 1 [] [(0, [])]).2.2 _ (by decide)⟩⟩

theorem heapMin_mem (x : HeapEntry) (xs : List HeapEntry) :
    heapMin x xs ∈ x :: xs := by
  induction xs generalizing x with
  | nil => simp [heapMin]
  | cons y ys ih =>
    have hstep : heapMin x (y :: ys) =
        heapMin (if heapLe x y then x else y) ys := rfl
    rw [hstep]
    rcases List.mem_cons.mp (ih (if heapLe x y then x else y)) with h2 | h2
    · rw [h2]
      by_cases h : heapLe x y <;> simp [h]
    · simp [h2]

theorem heapPop_none {h : List HeapEntry} : heapPop h = none ↔ h = [] := by
  cases h <;> simp [heapPop]

theorem heapPop_spec {h : List HeapEntry} {m : HeapEntry}
    {rest : List HeapEntry} (hp : heapPop h = some (m, rest)) :
    m ∈ h ∧ rest = h.erase m ∧ rest.length + 1 = h.length := by
  cases h with
  | nil => simp [heapPop] at hp
  | cons x xs =>
    rw [heapPop] at hp
    injection hp with hp
    injection hp with h1 h2
    have hmem : m ∈ x :: xs := h1 ▸ heapMin_mem x xs
    refine ⟨hmem, by rw [← h2, h1], ?_⟩
    rw [← h2]
    have hle := List.length_erase_of_mem (heapMin_mem x xs)
    have hc : (x :: xs).length = xs.length + 1 := rfl
    omega

/-- Any property preserved by one loop-body pass is an invariant of
`primLoop`. -/
theorem primLoop_invariant {num_vertices : Nat} (P : PrimState → Prop)
    (hstep : ∀ s w u v rest, P s → s.visited.length < num_vertices →
      heapPop s.minHeap = some ((w, u, v), rest) → P (primStep s w u v rest)) :
    ∀ fuel s s', P s → primLoop num_vertices fuel s = some s' → P s' := by
  intro fuel
  induction fuel with
  | zero => intro s s' _ h; simp [primLoop] at h
  | succ n ih =>
    intro s s' hP h
    rw [primLoop] at h
    by_cases hlt : s.visited.length < num_vertices
    · rw [if_pos hlt] at h
      cases hpop : heapPop s.minHeap with
      | none =>
        rw [hpop] at h
        injection h with h
        rw [← h]; exact hP
      | some v =>
        obtain ⟨⟨w, u, ve⟩, rest⟩ := v
        rw [hpop] at h
        exact ih _ _ (hstep s w u ve rest hP hlt hpop) h
    · rw [if_neg hlt] at h
      injection h with h
      rw [← h]; exact hP

/-- The loop exits either with all vertices visited or with an empty
heap. -/
theorem primLoop_exit {num_vertices : Nat} :
    ∀ fuel s s', primLoop num_vertices fuel s = some s' →
      num_vertices ≤ s'.visited.length ∨ s'.minHeap = [] := by
  intro fuel
  induction fuel with
  | zero => intro s s' h; simp [primLoop] at h
  | succ n ih =>
    intro s s' h
    rw [primLoop] at h
    by_cases hlt : s.visited.length < num_vertices
    · rw [if_pos hlt] at h
      cases hpop : heapPop s.minHeap with
      | none =>
        rw [hpop] at h
        injection h with h
        rw [← h]
        exact Or.inr (heapPop_none.mp hpop)
      | some v =>
        obtain ⟨⟨w, u, ve⟩, rest⟩ := v
        rw [hpop] at h
        exact ih _ _ h
    · rw [if_neg hlt] at h
      injection h with h
      rw [← h]
      exact Or.inl (by omega)

theorem dictGet_length_le (adj : AdjList) (v : Nat) :
    (dictGet adj v).length ≤ adjSize adj := by
  unfold dictGet
  cases hfind : adj.find? (fun p => p.1 = v) with
  | none => simp
  | some p =>
    have hmem : p ∈ adj := List.mem_of_find?_eq_some hfind
    have : p.2.length ∈ adj.map (fun q => q.2.length) :=
      List.mem_map_of_mem _ hmem
    exact List.single_le_sum (fun _ _ => Nat.zero_le _) _ this

/-- The `primStep` measure decreases: fuel `μ(s) + 1` always suffices. -/
theorem primLoop_total {num_vertices : Nat} :
    ∀ fuel s,
      s.minHeap.length +
        (num_vertices - s.visited.length) * (adjSize s.adjList + 1) < fuel →
      ∃ s', primLoop num_vertices fuel s = some s' := by
  intro fuel
  induction fuel with
  | zero => intro s h; omega
  | succ n ih =>
    intro s hmu
    rw [primLoop]
    by_cases hlt : s.visited.length < num_vertices
    · rw [if_pos hlt]
      cases hpop : heapPop s.minHeap with
      | none => exact ⟨s, rfl⟩
      | some v =>
        obtain ⟨⟨w, u, ve⟩, rest⟩ := v
        obtain ⟨hmem, hrest, hlen⟩ := heapPop_spec hpop
        apply ih
        unfold primStep
        by_cases hv : ve ∈ s.visited
        · rw [if_pos hv]
          show rest.length +
            (num_vertices - s.visited.length) * (adjSize s.adjList + 1) < n
          omega
        · rw [if_neg hv]
          have hpush : (((dictGet s.adjList ve).filter
              (fun q => ¬ (q.1 ∈ s.visited ++ [ve]))).map
                (fun q => (q.2, ve, q.1))).length ≤ adjSize s.adjList := by
            rw [List.length_map]
            exact le_trans (List.length_filter_le _ _)
              (dictGet_length_le s.adjList ve)
          show (rest ++ _).length + _ < n
          simp only [List.length_append, List.length_cons, List.length_nil,
            Nat.zero_add]
          set A := adjSize s.adjList with hA
          have hsub : num_vertices - (s.visited.length + 1) + 1 =
              num_vertices - s.visited.length := by omega
          have expand : (num_vertices - s.visited.length) * (A + 1) =
              (num_vertices - (s.visited.length + 1)) * (A + 1) + (A + 1) := by
            calc (num_vertices - s.visited.length) * (A + 1)
                = ((num_vertices - (s.visited.length + 1)) + 1) * (A + 1) := by
                  rw [hsub]
              _ = (num_vertices - (s.visited.length + 1)) * (A + 1) +
                  (A + 1) := by ring
          omega
    · rw [if_neg hlt]
      exact ⟨s, rfl⟩

/-- The fuel chosen by `primRun` always suffices: the embedded `while`
loop of `prims_mst` terminates on every input. -/
theorem primRun_isSome (num_vertices : Nat) (adj : AdjList) :
    ∃ s', primRun num_vertices adj = some s' := by
  unfold primRun primFuel
  apply primLoop_total
  show (primInit adj).minHeap.length + _ < _
  have h1 : (primInit adj).minHeap.length = (dictGet adj 0).length := by
    simp [primInit]
  have h2 : (primInit adj).visited.length = 1 := by simp [primInit]
  have h3 : (primInit adj).adjList = adj := rfl
  rw [h1, h2, h3]
  have : (num_vertices - 1) * (adjSize adj + 1) ≤
      num_vertices * (adjSize adj + 1) :=
    Nat.mul_le_mul_right _ (by omega)
  omega

theorem rootedChain_snoc {l : List Edge} {e : Edge} :
    ∀ seen, RootedChain seen l →
      e.1 ∈ seen ++ l.map (fun x => x.2.1) → RootedChain seen (l ++ [e]) := by
  induction l with
  | nil =>
    intro seen _ he
    exact ⟨by simpa using he, trivial⟩
  | cons f fs ih =>
    intro seen h he
    obtain ⟨h1, h2⟩ := h
    refine ⟨h1, ih (seen ++ [f.2.1]) h2 ?_⟩
    simp only [List.map_cons, List.append_assoc] at he ⊢
    simpa using he

theorem primInv10_init {num_vertices : Nat} (adj : AdjList)
    (hV : 1 ≤ num_vertices) : PrimInv10 num_vertices (primInit adj) := by
  refine ⟨rfl, by simp [primInit], ?_, trivial, by simp [primInit]; omega⟩
  intro e he
  simp only [primInit, List.mem_map] at he
  obtain ⟨p, _, hp⟩ := he
  rw [← hp]
  simp [primInit]

theorem primInv10_step {num_vertices : Nat} (s : PrimState) (w : ℚ)
    (u v : Nat) (rest : List HeapEntry) (hP : PrimInv10 num_vertices s)
    (hlt : s.visited.length < num_vertices)
    (hpop : heapPop s.minHeap = some ((w, u, v), rest)) :
    PrimInv10 num_vertices (primStep s w u v rest) := by
  obtain ⟨hvis, hnd, hheap, hchain, hbound⟩ := hP
  obtain ⟨hmem, hrest, hlen⟩ := heapPop_spec hpop
  have hrest_sub : ∀ e ∈ rest, e ∈ s.minHeap := by
    intro e he
    rw [hrest] at he
    exact List.mem_of_mem_erase he
  unfold primStep
  by_cases hv : v ∈ s.visited
  · rw [if_pos hv]
    exact ⟨hvis, hnd, fun e he => hheap e (hrest_sub e he), hchain, hbound⟩
  · rw [if_neg hv]
    have husrc : u ∈ s.visited := hheap (w, u, v) hmem
    refine ⟨?_, ?_, ?_, ?_, ?_⟩
    · show s.visited ++ [v] = 0 :: (s.mstEdges ++ [(u, v, w)]).map _
      rw [List.map_append, hvis]
      rfl
    · show (s.visited ++ [v]).Nodup
      rw [List.nodup_append]
      refine ⟨hnd, List.nodup_singleton v, ?_⟩
      intro a ha hb
      rw [List.mem_singleton] at hb
      rw [hb] at ha
      exact hv ha
    · intro e he
      show e.2.1 ∈ s.visited ++ [v]
      rcases List.mem_append.mp he with h1 | h1
      · exact List.mem_append_left _ (hheap e (hrest_sub e h1))
      · obtain ⟨q, _, hq⟩ := List.mem_map.mp h1
        rw [← hq]
        exact List.mem_append_right _ (by simp)
    · show RootedChain [0] (s.mstEdges ++ [(u, v, w)])
      apply rootedChain_snoc [0] hchain
      show u ∈ [0] ++ s.mstEdges.map (fun x => x.2.1)
      have hq : ([0] : List Nat) ++ s.mstEdges.map (fun x => x.2.1) =
          0 :: s.mstEdges.map (fun x => x.2.1) := rfl
      rw [hq, ← hvis]
      exact husrc
    · show (s.visited ++ [v]).length ≤ num_vertices
      simp only [List.length_append, List.length_cons, List.length_nil]
      omega

/-- C10: the edge list `prims_mst` returns is a forest rooted at the
start vertex 0: the visited set is exactly the start vertex followed by
the selected destinations, without repetition — so every vertex is the
destination of at most one selected edge and each destination was
unvisited when its edge was selected —, every selected edge's source is
the start vertex or an earlier destination, and the number of selected
edges is the number of visited vertices minus one, hence at most
`num_vertices - 1`. -/
theorem claim_C10_prim_rooted_forest (num_vertices : Nat) (adj : AdjList)
    (hV : 1 ≤ num_vertices) :
    ∃ s, primRun num_vertices adj = some s ∧
      prims_mst num_vertices adj = (s.mstCost, s.mstEdges) ∧
      s.visited = 0 :: s.mstEdges.map (fun e => e.2.1) ∧
      s.visited.Nodup ∧
      RootedChain [0] s.mstEdges ∧
      s.mstEdges.length + 1 = s.visited.length ∧
      s.mstEdges.length ≤ num_vertices - 1 := by
  obtain ⟨s, hs⟩ := primRun_isSome num_vertices adj
  have hinv : PrimInv10 num_vertices s :=
    primLoop_invariant (PrimInv10 num_vertices)
      (fun s w u v rest hP hlt hpop => primInv10_step s w u v rest hP hlt hpop)
      _ _ _ (primInv10_init adj hV) hs
  obtain ⟨hvis, hnd, _, hchain, hbound⟩ := hinv
  have hlen : s.mstEdges.length + 1 = s.visited.length := by
    rw [hvis]
    simp
  refine ⟨s, hs, ?_, hvis, hnd, hchain, hlen, by omega⟩
  unfold prims_mst
  rw [if_neg (show ¬ num_vertices = 0 by omega), hs]

/-- Witness for C10 on the concrete C2 graph. -/
theorem claim_C10_witness :
    ∃ s, primRun 4 (buildAdj 4 concreteEdges) = some s ∧
      prims_mst 4 (buildAdj 4 concreteEdges) = (s.mstCost, s.mstEdges) ∧
      s.visited = 0 :: s.mstEdges.map (fun e => e.2.1) ∧
      s.visited.Nodup ∧
      RootedChain [0] s.mstEdges ∧
      s.mstEdges.length + 1 = s.visited.length ∧
      s.mstEdges.length ≤ 4 - 1 :=
  claim_C10_prim_rooted_forest 4 (buildAdj 4 concreteEdges) (by omega)

theorem edgeAdj_symm {E : List Edge} {u v : Nat} (h : edgeAdj E u v) :
    edgeAdj E v u := by
  obtain ⟨e, he, h1 | h1⟩ := h
  · exact ⟨e, he, Or.inr h1⟩
  · exact ⟨e, he, Or.inl h1⟩

theorem edgeConn.refl {E : List Edge} (a : Nat) : edgeConn E a a :=
  Relation.ReflTransGen.refl

theorem edgeConn.trans {E : List Edge} {a b c : Nat} (h1 : edgeConn E a b)
    (h2 : edgeConn E b c) : edgeConn E a c :=
  Relation.ReflTransGen.trans h1 h2

theorem edgeConn.symm {E : List Edge} {a b : Nat} (h : edgeConn E a b) :
    edgeConn E b a := by
  induction h with
  | refl => exact Relation.ReflTransGen.refl
  | tail hstep hadj ih =>
    exact Relation.ReflTransGen.trans
      (Relation.ReflTransGen.single (edgeAdj_symm hadj)) ih

theorem edgeConn.single {E : List Edge} {a b : Nat} (h : edgeAdj E a b) :
    edgeConn E a b :=
  Relation.ReflTransGen.single h

theorem edgeAdj_mono {E F : List Edge} (hsub : ∀ e ∈ E, e ∈ F) {a b : Nat}
    (h : edgeAdj E a b) : edgeAdj F a b := by
  obtain ⟨e, he, hor⟩ := h
  exact ⟨e, hsub e he, hor⟩

theorem edgeConn_mono {E F : List Edge} (hsub : ∀ e ∈ E, e ∈ F) {a b : Nat}
    (h : edgeConn E a b) : edgeConn F a b := by
  induction h with
  | refl => exact Relation.ReflTransGen.refl
  | tail hstep hadj ih =>
    exact Relation.ReflTransGen.tail ih (edgeAdj_mono hsub hadj)

/-- Adding the edge `e` to `E` merges exactly the connectivity classes
of its two endpoints. -/
theorem edgeConn_snoc (E : List Edge) (e : Edge) (a b : Nat) :
    edgeConn (E ++ [e]) a b ↔
      (edgeConn E a b ∨ (edgeConn E a e.1 ∧ edgeConn E e.2.1 b) ∨
        (edgeConn E a e.2.1 ∧ edgeConn E e.1 b)) := by
  constructor
  · intro h
    induction h with
    | refl => exact Or.inl (edgeConn.refl a)
    | tail hstep hadj ih =>
      rename_i c b'
      obtain ⟨f, hf, hor⟩ := hadj
      rcases List.mem_append.mp hf with hfE | hfe
      · have hstep2 : edgeConn E c b' := edgeConn.single ⟨f, hfE, hor⟩
        rcases ih with h1 | ⟨h1, h2⟩ | ⟨h1, h2⟩
        · exact Or.inl (h1.trans hstep2)
        · exact Or.inr (Or.inl ⟨h1, h2.trans hstep2⟩)
        · exact Or.inr (Or.inr ⟨h1, h2.trans hstep2⟩)
      · have hfe' : f = e := by simpa using hfe
        rw [hfe'] at hor
        rcases hor with ⟨h3, h4⟩ | ⟨h3, h4⟩
        · -- step uses e forwards: c = e.1, b' = e.2.1
          have c2 : edgeConn E e.2.1 b' := by
            rw [h4]
            exact edgeConn.refl _
          rcases ih with h1 | ⟨h1, h2⟩ | ⟨h1, h2⟩
          · have c1 : edgeConn E a e.1 := by rw [h3]; exact h1
            exact Or.inr (Or.inl ⟨c1, c2⟩)
          · exact Or.inr (Or.inl ⟨h1, c2⟩)
          · have c1 : edgeConn E a b' := by rw [← h4]; exact h1
            exact Or.inl c1
        · -- step uses e backwards: c = e.2.1, b' = e.1
          have c2 : edgeConn E e.1 b' := by
            rw [h3]
            exact edgeConn.refl _
          rcases ih with h1 | ⟨h1, h2⟩ | ⟨h1, h2⟩
          · have c1 : edgeConn E a e.2.1 := by rw [h4]; exact h1
            exact Or.inr (Or.inr ⟨c1, c2⟩)
          · have c1 : edgeConn E a b' := by rw [← h3]; exact h1
            exact Or.inl c1
          · exact Or.inr (Or.inr ⟨h1, c2⟩)
  · have hmono : ∀ x y, edgeConn E x y → edgeConn (E ++ [e]) x y :=
      fun x y h => edgeConn_mono (fun f hf => List.mem_append_left _ hf) h
    have hestep : edgeConn (E ++ [e]) e.1 e.2.1 :=
      edgeConn.single ⟨e, List.mem_append_right _ (by simp), Or.inl ⟨rfl, rfl⟩⟩
    rintro (h1 | ⟨h1, h2⟩ | ⟨h1, h2⟩)
    · exact hmono _ _ h1
    · exact ((hmono _ _ h1).trans hestep).trans (hmono _ _ h2)
    · exact ((hmono _ _ h1).trans hestep.symm).trans (hmono _ _ h2)

/-- A connected pair split by a vertex set yields a crossing edge. -/
theorem edgeConn_crossing {E : List Edge} {a b : Nat} (h : edgeConn E a b)
    (C : Nat → Prop) (ha : C a) (hb : ¬ C b) :
    ∃ u v, C u ∧ ¬ C v ∧ edgeAdj E u v := by
  induction h with
  | refl => exact absurd ha hb
  | tail hstep hadj ih =>
    rename_i c b'
    by_cases hc : C c
    · exact ⟨c, b', hc, hb, hadj⟩
    · exact ih hc

theorem countP_ge_two {α : Type} {l : List α} {p : α → Bool} {a b : α}
    (ha : a ∈ l) (hb : b ∈ l) (hne : a ≠ b) (hpa : p a = true)
    (hpb : p b = true) : 2 ≤ l.countP p := by
  induction l with
  | nil => simp at ha
  | cons x xs ih =>
    rcases List.mem_cons.mp ha with rfl | ha'
    · have hb' : b ∈ xs := by
        rcases List.mem_cons.mp hb with h1 | h1
        · exact absurd h1.symm hne
        · exact h1
      have h1 : 0 < xs.countP p := List.countP_pos_iff.mpr ⟨b, hb', hpb⟩
      rw [List.countP_cons, if_pos hpa]
      omega
    · rcases List.mem_cons.mp hb with rfl | hb'
      · have h1 : 0 < xs.countP p := List.countP_pos_iff.mpr ⟨a, ha', hpa⟩
        rw [List.countP_cons, if_pos hpb]
        omega
      · have := ih ha' hb'
        rw [List.countP_cons]
        have hif : (if p x = true then 1 else 0) ≤ 1 := by
          by_cases h : p x = true <;> simp [h]
        omega

theorem countP_eq_one_unique {α : Type} {l : List α} {p : α → Bool}
    (h : l.countP p = 1) {a b : α} (ha : a ∈ l) (hb : b ∈ l)
    (hpa : p a = true) (hpb : p b = true) : a = b := by
  by_contra hne
  have := countP_ge_two ha hb hne hpa hpb
  omega

theorem countP_eq_one_of_iff {α : Type} {l : List α} {p : α → Bool} {a : α}
    (hnd : l.Nodup) (ha : a ∈ l) (hiff : ∀ x ∈ l, (p x = true ↔ x = a)) :
    l.countP p = 1 := by
  induction l with
  | nil => simp at ha
  | cons x xs ih =>
    obtain ⟨hx, hndxs⟩ := List.nodup_cons.mp hnd
    rw [List.countP_cons]
    rcases List.mem_cons.mp ha with rfl | ha'
    · have hz : xs.countP p = 0 := by
        rw [List.countP_eq_zero]
        intro y hy hpy
        exact hx (((hiff y (List.mem_cons_of_mem _ hy)).mp hpy) ▸ hy)
      rw [hz, if_pos ((hiff a (List.mem_cons_self _ _)).mpr rfl)]
    · have hpx : ¬ p x = true := by
        intro hc
        exact hx ((hiff x (List.mem_cons_self _ _)).mp hc ▸ ha')
      rw [if_neg hpx, ih hndxs ha'
        (fun y hy => hiff y (List.mem_cons_of_mem _ hy))]

/-- If a well-formed DSU over `V` elements has a single root, all
in-range elements are in the same set. -/
theorem sameSet_all_of_rootCount_one {d : DSU} (hwf : d.WF)
    {V : Nat} (hlen : d.parent.length = V) (hrc : rootCount d = 1) :
    ∀ a b, a < V → b < V → d.SameSet a b := by
  intro a b ha hb
  obtain ⟨ra, _, hra⟩ := droot_eq_some hwf.2 (show a < d.parent.length by omega)
  obtain ⟨rb, _, hrb⟩ := droot_eq_some hwf.2 (show b < d.parent.length by omega)
  have hralt : ra < V := by
    have := hra.lt_length hwf.2 (by omega)
    omega
  have hrblt : rb < V := by
    have := hrb.lt_length hwf.2 (by omega)
    omega
  have heq : ra = rb := by
    apply countP_eq_one_unique (l := List.range d.parent.length)
      (p := fun i => decide (pget d.parent i = i)) hrc
    · rw [hlen]; exact List.mem_range.mpr hralt
    · rw [hlen]; exact List.mem_range.mpr hrblt
    · exact decide_eq_true hra.pget_self
    · exact decide_eq_true hrb.pget_self
  exact ⟨ra, hra, heq ▸ hrb⟩

/-- Conversely, a totally merged well-formed DSU has exactly one root. -/
theorem rootCount_one_of_sameSet_all {d : DSU} (hwf : d.WF)
    {V : Nat} (hlen : d.parent.length = V) (hV : 1 ≤ V)
    (hall : ∀ a b, a < V → b < V → d.SameSet a b) : rootCount d = 1 := by
  obtain ⟨r0, _, hr0⟩ := droot_eq_some hwf.2 (show 0 < d.parent.length by omega)
  have hr0lt : r0 < V := by
    have := hr0.lt_length hwf.2 (by omega)
    omega
  unfold rootCount
  apply countP_eq_one_of_iff (a := r0) (List.nodup_range _)
  · rw [hlen]; exact List.mem_range.mpr hr0lt
  · intro x hx
    have hxV : x < V := by
      have := List.mem_range.mp hx
      omega
    constructor
    · intro hpx
      have hxr : pget d.parent x = x := of_decide_eq_true hpx
      obtain ⟨s, hs1, hs2⟩ := hall x 0 hxV (by omega)
      have e1 : s = x := hs1.of_root hxr
      have e2 : s = r0 := hs2.unique hr0
      omega
    · intro hxe
      rw [hxe]
      exact decide_eq_true hr0.pget_self

/-- A well-formed DSU separating two in-range elements has at least two
roots. -/
theorem rootCount_ge_two_of_not_sameSet {d : DSU} (hwf : d.WF)
    {V : Nat} (hlen : d.parent.length = V) {a b : Nat} (ha : a < V)
    (hb : b < V) (hnot : ¬ d.SameSet a b) : 2 ≤ rootCount d := by
  obtain ⟨ra, _, hra⟩ := droot_eq_some hwf.2 (show a < d.parent.length by omega)
  obtain ⟨rb, _, hrb⟩ := droot_eq_some hwf.2 (show b < d.parent.length by omega)
  have hne : ra ≠ rb := by
    intro hc
    exact hnot ⟨ra, hra, hc ▸ hrb⟩
  apply countP_ge_two (a := ra) (b := rb)
  · rw [hlen]
    exact List.mem_range.mpr (by
      have := hra.lt_length hwf.2 (show a < d.parent.length by omega)
      omega)
  · rw [hlen]
    exact List.mem_range.mpr (by
      have := hrb.lt_length hwf.2 (show b < d.parent.length by omega)
      omega)
  · exact hne
  · exact decide_eq_true hra.pget_self
  · exact decide_eq_true hrb.pget_self

/-- `union` never fails on valid indices of a well-formed state. -/
theorem DSU.union_total {d : DSU} (hwf : d.WF) {x y : Nat}
    (hx : x < d.parent.length) (hy : y < d.parent.length) :
    ∃ b d', d.union x y = some (b, d') ∧ d'.WF ∧
      d'.parent.length = d.parent.length := by
  obtain ⟨rx, _, hrx⟩ := droot_eq_some hwf.2 hx
  obtain ⟨ry, _, hry⟩ := droot_eq_some hwf.2 hy
  by_cases hre : rx = ry
  · obtain ⟨d', hu, hwf', _, hlen', _⟩ :=
      DSU.union_noop hwf hx hy hrx (hre ▸ hry)
    exact ⟨false, d', hu, hwf', hlen'⟩
  · obtain ⟨d', hu, hwf', hlen', _⟩ :=
      DSU.union_merge hwf hx hy hrx hry hre
    exact ⟨true, d', hu, hwf', hlen'⟩

theorem kruskalsAux_cons (V n1 n2 : Nat) (w : ℚ) (R : List Edge) (d : DSU)
    (cost : ℚ) (mst : List Edge) :
    kruskalsAux V ((n1, n2, w) :: R) d cost mst =
      match d.union n1 n2 with
      | none => none
      | some (true, d1) =>
        if (mst ++ [(n1, n2, w)]).length = V - 1 then
          some (cost + w, mst ++ [(n1, n2, w)])
        else kruskalsAux V R d1 (cost + w) (mst ++ [(n1, n2, w)])
      | some (false, d1) => kruskalsAux V R d1 cost mst := rfl

/-- The workhorse for C9/C1 on the Kruskal side: running the remaining
edges `R` from a state satisfying the loop invariant terminates with the
cost equal to the selected weight sum, the selected edges a sublist of
the full sorted list, and either the spanning tree complete (`V - 1`
edges, everything connected) or all edges processed with the final DSU
partition equal to graph connectivity. -/
theorem kruskalsAux_spec (V : Nat) (Eall : List Edge)
    (hvalid : ∀ e ∈ Eall, e.1 < V ∧ e.2.1 < V) :
    ∀ R P d cost mst,
      Eall = P ++ R →
      d.WF → d.parent.length = V →
      (∀ a b, a < V → b < V → (d.SameSet a b ↔ edgeConn P a b)) →
      mst.length + rootCount d = V →
      cost = edgeWeightSum mst →
      (∀ a b, edgeConn mst a b ↔ edgeConn P a b) →
      mst.Sublist P →
      ∃ c' m', kruskalsAux V R d cost mst = some (c', m') ∧
        c' = edgeWeightSum m' ∧
        m'.Sublist Eall ∧
        ((m'.length = V - 1 ∧ 1 ≤ V ∧
            (∀ a b, a < V → b < V → edgeConn m' a b)) ∨
          (∃ d', d'.WF ∧ d'.parent.length = V ∧
            m'.length + rootCount d' = V ∧
            (∀ a b, a < V → b < V → (d'.SameSet a b ↔ edgeConn Eall a b)) ∧
            (∀ a b, edgeConn m' a b ↔ edgeConn Eall a b))) := by
  intro R
  induction R with
  | nil =>
    intro P d cost mst hEall hwf hlen hpart hcount hcost hconn hsub
    rw [List.append_nil] at hEall
    subst hEall
    refine ⟨cost, mst, rfl, hcost, hsub, Or.inr ⟨d, hwf, hlen, hcount,
      hpart, hconn⟩⟩
  | cons e R' ih =>
    intro P d cost mst hEall hwf hlen hpart hcount hcost hconn hsub
    obtain ⟨n1, n2, w⟩ := e
    have heEall : (n1, n2, w) ∈ Eall := by
      rw [hEall]
      exact List.mem_append_right _ (List.mem_cons_self _ _)
    have hn1 : n1 < V := by
      have := (hvalid _ heEall).1
      simpa using this
    have hn2 : n2 < V := by
      have := (hvalid _ heEall).2
      simpa using this
    have hn1' : n1 < d.parent.length := by omega
    have hn2' : n2 < d.parent.length := by omega
    obtain ⟨r1, _, hr1⟩ := droot_eq_some hwf.2 hn1'
    obtain ⟨r2, _, hr2⟩ := droot_eq_some hwf.2 hn2'
    have hPsub : ∀ f ∈ P ++ [(n1, n2, w)], f ∈ Eall := by
      intro f hf
      rcases List.mem_append.mp hf with h1 | h1
      · rw [hEall]; exact List.mem_append_left _ h1
      · rw [hEall]
        refine List.mem_append_right _ ?_
        simp at h1
        simp [h1]
    by_cases hre : r1 = r2
    · -- already same component: union returns False, edge skipped
      obtain ⟨d1, hu, hwf1, _, hlen1, hiff1, hstat1⟩ :=
        DSU.union_noop hwf hn1' hn2' hr1 (hre ▸ hr2)
      have hconnP12 : edgeConn P n1 n2 := by
        rw [← hpart n1 n2 hn1 hn2]
        exact ⟨r1, hr1, hre ▸ hr2⟩
      have hcollapse : ∀ a b, edgeConn (P ++ [(n1, n2, w)]) a b ↔
          edgeConn P a b := by
        intro a b
        rw [edgeConn_snoc]
        constructor
        · rintro (h1 | ⟨h1, h2⟩ | ⟨h1, h2⟩)
          · exact h1
          · exact (h1.trans hconnP12).trans h2
          · exact (h1.trans hconnP12.symm).trans h2
        · exact Or.inl
      have heq1 : ∀ a b, d1.SameSet a b ↔ d.SameSet a b :=
        sameRoot_iff_of_reaches_iff hiff1
      have := ih (P ++ [(n1, n2, w)]) d1 cost mst
        (by rw [hEall]; simp) hwf1 (by omega)
        (fun a b ha hb => by
          rw [heq1 a b, hpart a b ha hb, hcollapse a b])
        (by rw [rootCount_eq_of_status (by omega) hstat1]; exact hcount)
        hcost
        (fun a b => by rw [hconn a b, hcollapse a b])
        (hsub.trans (List.sublist_append_left _ _))
      obtain ⟨c', m', hrun, hc', hm'sub, hpost⟩ := this
      refine ⟨c', m', ?_, hc', hm'sub, hpost⟩
      simp only [kruskalsAux_cons, hu]
      exact hrun
    · -- different components: union returns True, edge selected
      obtain ⟨d1, hu, hwf1, hlen1, hmerge, hrc, hxy⟩ :=
        DSU.union_merge hwf hn1' hn2' hr1 hr2 hre
      have hpart1 : ∀ a b, a < V → b < V →
          (d1.SameSet a b ↔ edgeConn (P ++ [(n1, n2, w)]) a b) := by
        intro a b ha hb
        rw [hmerge a b, edgeConn_snoc]
        rw [hpart a b ha hb, hpart a n1 ha hn1, hpart n2 b hn2 hb,
          hpart a n2 ha hn2, hpart n1 b hn1 hb]
      have hconn1 : ∀ a b, edgeConn (mst ++ [(n1, n2, w)]) a b ↔
          edgeConn (P ++ [(n1, n2, w)]) a b := by
        intro a b
        rw [edgeConn_snoc, edgeConn_snoc]
        rw [hconn a b, hconn a n1, hconn n2 b, hconn a n2, hconn n1 b]
      have hcount1 : (mst ++ [(n1, n2, w)]).length + rootCount d1 = V := by
        simp only [List.length_append, List.length_cons, List.length_nil]
        omega
      have hcost1 : cost + w = edgeWeightSum (mst ++ [(n1, n2, w)]) := by
        rw [hcost]
        unfold edgeWeightSum
        rw [List.map_append, List.sum_append]
        simp
      have hsub1 : (mst ++ [(n1, n2, w)]).Sublist (P ++ [(n1, n2, w)]) :=
        hsub.append (List.Sublist.refl _)
      by_cases hbreak : (mst ++ [(n1, n2, w)]).length = V - 1
      · -- spanning tree complete: early break
        have hlenm : (mst ++ [(n1, n2, w)]).length = mst.length + 1 := by
          simp
        have hVpos : 1 ≤ V := by omega
        have hrc1 : rootCount d1 = 1 := by omega
        have hallset := sameSet_all_of_rootCount_one hwf1 (V := V)
          (by omega) hrc1
        have hallconn : ∀ a b, a < V → b < V →
            edgeConn (mst ++ [(n1, n2, w)]) a b := by
          intro a b ha hb
          rw [hconn1 a b]
          rw [← hpart1 a b ha hb]
          exact hallset a b ha hb
        have hPe : (P ++ [(n1, n2, w)]).Sublist Eall := by
          rw [hEall]
          exact List.Sublist.append_left
            (List.Sublist.cons₂ _ (List.nil_sublist R')) P
        refine ⟨cost + w, mst ++ [(n1, n2, w)], ?_, hcost1,
          hsub1.trans hPe, ?_⟩
        · simp only [kruskalsAux_cons, hu]
          rw [if_pos hbreak]
        · exact Or.inl ⟨hbreak, hVpos, hallconn⟩
      · have := ih (P ++ [(n1, n2, w)]) d1 (cost + w) (mst ++ [(n1, n2, w)])
          (by rw [hEall]; simp) hwf1 (by omega) hpart1 hcount1 hcost1
          hconn1 hsub1
        obtain ⟨c', m', hrun, hc', hm'sub, hpost⟩ := this
        refine ⟨c', m', ?_, hc', hm'sub, hpost⟩
        simp only [kruskalsAux_cons, hu]
        rw [if_neg hbreak]
        exact hrun

theorem edgeConn_nil {a b : Nat} (h : edgeConn [] a b) : a = b := by
  induction h with
  | refl => rfl
  | tail hstep hadj ih =>
    obtain ⟨e, he, _⟩ := hadj
    simp at he

theorem sortEdges_perm (E : List Edge) : (sortEdges E).Perm E :=
  List.perm_insertionSort _ _

theorem edgeConn_sortEdges (E : List Edge) (a b : Nat) :
    edgeConn (sortEdges E) a b ↔ edgeConn E a b := by
  constructor
  · exact edgeConn_mono (fun e he => (sortEdges_perm E).mem_iff.mp he)
  · exact edgeConn_mono (fun e he => (sortEdges_perm E).mem_iff.mpr he)

theorem create_sameSet_iff (V : Nat) (a b : Nat) :
    (DSU.create V).SameSet a b ↔ a = b := by
  constructor
  · intro h
    by_contra hne
    exact create_not_sameSet hne h
  · rintro rfl
    exact ⟨a, create_reaches V, create_reaches V⟩

/-- Packaged Kruskal behaviour: termination, cost = selected weight sum,
and the selected count against connectivity. -/
theorem kruskals_mst_spec (V : Nat) (E : List Edge)
    (hvalid : ∀ e ∈ E, e.1 < V ∧ e.2.1 < V) :
    ∃ c m, kruskals_mst V E = some (c, m) ∧
      c = edgeWeightSum m ∧
      m.Sublist (sortEdges E) ∧
      ((∀ a b, a < V → b < V → edgeConn E a b) → m.length = V - 1) ∧
      ((∃ a b, a < V ∧ b < V ∧ ¬ edgeConn E a b) → m.length < V - 1) ∧
      ((∀ a b, a < V → b < V → edgeConn E a b) →
        (∀ a b, a < V → b < V → edgeConn m a b)) := by
  have hvalid' : ∀ e ∈ sortEdges E, e.1 < V ∧ e.2.1 < V :=
    fun e he => hvalid e ((sortEdges_perm E).mem_iff.mp he)
  have hbase := kruskalsAux_spec V (sortEdges E) hvalid' (sortEdges E) []
    (DSU.create V) 0 [] (by simp) (DSU.create_wf V) (by simp [DSU.create])
    (fun a b ha hb => by
      rw [create_sameSet_iff]
      constructor
      · rintro rfl; exact edgeConn.refl a
      · exact edgeConn_nil)
    (by simpa using rootCount_create V)
    (by simp [edgeWeightSum])
    (fun a b => Iff.rfl)
    (List.nil_sublist _)
  obtain ⟨c, m, hrun, hc, hsub, hpost⟩ := hbase
  have hconnEq : ∀ a b, edgeConn m a b → edgeConn E a b := by
    intro a b h
    rw [← edgeConn_sortEdges]
    exact edgeConn_mono (fun e he => hsub.subset he) h
  refine ⟨c, m, hrun, hc, hsub, ?_, ?_, ?_⟩
  · -- connected → V - 1 edges
    intro hconn
    rcases hpost with ⟨h1, _, _⟩ | ⟨d', hwf', hlen', hcount', hpart', _⟩
    · exact h1
    · rcases Nat.eq_zero_or_pos V with hV | hV
      · omega
      · have hall : ∀ a b, a < V → b < V → d'.SameSet a b := by
          intro a b ha hb
          rw [hpart' a b ha hb, edgeConn_sortEdges]
          exact hconn a b ha hb
        have := rootCount_one_of_sameSet_all hwf' hlen' hV hall
        omega
  · -- disconnected → fewer than V - 1 edges
    rintro ⟨a, b, ha, hb, hnot⟩
    have hne : a ≠ b := by
      rintro rfl
      exact hnot (edgeConn.refl a)
    rcases hpost with ⟨h1, hV, hallconn⟩ | ⟨d', hwf', hlen', hcount', hpart', _⟩
    · exact absurd (hconnEq a b (hallconn a b ha hb)) hnot
    · have hnotset : ¬ d'.SameSet a b := by
        rw [hpart' a b ha hb, edgeConn_sortEdges]
        exact hnot
      have := rootCount_ge_two_of_not_sameSet hwf' hlen' ha hb hnotset
      omega
  · -- connected → the selected edges span
    intro hconn
    rcases hpost with ⟨_, _, hallconn⟩ | ⟨d', hwf', hlen', hcount', hpart', hconnm⟩
    · exact hallconn
    · intro a b ha hb
      rw [hconnm a b, edgeConn_sortEdges]
      exact hconn a b ha hb

theorem reflTransGen_crossing {r : Nat → Nat → Prop} {a b : Nat}
    (h : Relation.ReflTransGen r a b) (C : Nat → Prop) (ha : C a)
    (hb : ¬ C b) : ∃ u v, C u ∧ ¬ C v ∧ r u v := by
  induction h with
  | refl => exact absurd ha hb
  | tail hstep hadj ih =>
    rename_i c b'
    by_cases hc : C c
    · exact ⟨c, b', hc, hb, hadj⟩
    · exact ih hc

theorem length_le_of_nodup_lt {l : List Nat} {V : Nat} (hnd : l.Nodup)
    (hmem : ∀ x ∈ l, x < V) : l.length ≤ V := by
  have hsub : l ⊆ List.range V :=
    fun x hx => List.mem_range.mpr (hmem x hx)
  have := (List.subperm_of_subset hnd hsub).length_le
  simpa using this

theorem exists_not_mem_of_length_lt {l : List Nat} {V : Nat}
    (hnd : l.Nodup) (hlen : l.length < V) : ∃ y, y < V ∧ y ∉ l := by
  by_contra hno
  push_neg at hno
  have hsub : List.range V ⊆ l := by
    intro y hy
    exact hno y (List.mem_range.mp hy)
  have := (List.subperm_of_subset (List.nodup_range V) hsub).length_le
  simp at this
  omega

theorem primInv9_init {num_vertices : Nat} (adj : AdjList)
    (hV : 1 ≤ num_vertices) : PrimInv9 num_vertices adj (primInit adj) := by
  refine ⟨rfl, by simp [primInit, edgeWeightSum], by simp [primInit],
    by simp [primInit], ?_, ?_, ?_, ?_, by simp [primInit]⟩
  · intro x hx
    simp [primInit] at hx
    omega
  · intro x hx
    simp [primInit] at hx
    rw [hx]
    exact Relation.ReflTransGen.refl
  · intro e he
    simp only [primInit, List.mem_map] at he
    obtain ⟨p, hp, hpe⟩ := he
    rw [← hpe]
    exact ⟨by simp [primInit], by simpa using hp⟩
  · intro u hu p hp hp1
    have hu0 : u = 0 := by simpa [primInit] using hu
    show (p.2, u, p.1) ∈ (dictGet adj 0).map (fun q => (q.2, 0, q.1))
    rw [hu0]
    rw [hu0] at hp
    exact List.mem_map_of_mem _ hp

theorem primInv9_step {num_vertices : Nat} {adj : AdjList}
    (hvalidA : ∀ u : Nat, ∀ p ∈ dictGet adj u, p.1 < num_vertices)
    (s : PrimState) (w : ℚ) (u v : Nat) (rest : List HeapEntry)
    (hP : PrimInv9 num_vertices adj s)
    (hlt : s.visited.length < num_vertices)
    (hpop : heapPop s.minHeap = some ((w, u, v), rest)) :
    PrimInv9 num_vertices adj (primStep s w u v rest) := by
  obtain ⟨hadj, hcost, hnd, h0, hbnd, hreach, hheap, hcover, hlen⟩ := hP
  obtain ⟨hmem, hrest, hlenrest⟩ := heapPop_spec hpop
  have hrest_sub : ∀ e ∈ rest, e ∈ s.minHeap := by
    intro e he
    rw [hrest] at he
    exact List.mem_of_mem_erase he
  unfold primStep
  by_cases hv : v ∈ s.visited
  · rw [if_pos hv]
    refine ⟨hadj, hcost, hnd, h0, hbnd, hreach,
      fun e he => hheap e (hrest_sub e he), ?_, hlen⟩
    intro u' hu' p hp hp1
    show (p.2, u', p.1) ∈ rest
    have hin : (p.2, u', p.1) ∈ s.minHeap := hcover u' hu' p hp hp1
    have hne : (p.2, u', p.1) ≠ (w, u, v) := by
      intro hc
      have : p.1 = v := congrArg (fun t => t.2.2) hc
      exact hp1 (this ▸ hv)
    rw [hrest]
    exact (List.mem_erase_of_ne hne).mpr hin
  · rw [if_neg hv]
    obtain ⟨husrc, hudict⟩ := hheap (w, u, v) hmem
    have hreachv : adjReach adj 0 v :=
      Relation.ReflTransGen.tail (hreach u husrc) ⟨w, hudict⟩
    refine ⟨hadj, ?_, ?_, List.mem_append_left _ h0, ?_, ?_, ?_, ?_, ?_⟩
    · show s.mstCost + w = edgeWeightSum (s.mstEdges ++ [(u, v, w)])
      rw [hcost]
      unfold edgeWeightSum
      rw [List.map_append, List.sum_append]
      simp
    · show (s.visited ++ [v]).Nodup
      rw [List.nodup_append]
      refine ⟨hnd, List.nodup_singleton v, ?_⟩
      intro a ha hb
      rw [List.mem_singleton] at hb
      rw [hb] at ha
      exact hv ha
    · intro x hx
      rcases List.mem_append.mp hx with h1 | h1
      · exact hbnd x h1
      · rw [List.mem_singleton] at h1
        rw [h1]
        exact hvalidA u _ hudict
    · intro x hx
      rcases List.mem_append.mp hx with h1 | h1
      · exact hreach x h1
      · rw [List.mem_singleton] at h1
        rw [h1]
        exact hreachv
    · intro e he
      rcases List.mem_append.mp he with h1 | h1
      · obtain ⟨ha, hb⟩ := hheap e (hrest_sub e h1)
        rw [hadj] at *
        exact ⟨List.mem_append_left _ ha, hb⟩
      · obtain ⟨q, hq, hqe⟩ := List.mem_map.mp h1
        rw [← hqe]
        refine ⟨List.mem_append_right _ (by simp), ?_⟩
        show (q.1, q.2) ∈ dictGet adj v
        have := List.mem_of_mem_filter hq
        rw [hadj] at this
        simpa using this
    · intro u' hu' p hp hp1
      show (p.2, u', p.1) ∈ rest ++ _
      have hp1old : p.1 ∉ s.visited := by
        intro hc
        exact hp1 (List.mem_append_left _ hc)
      rcases List.mem_append.mp hu' with h1 | h1
      · have hin : (p.2, u', p.1) ∈ s.minHeap := hcover u' h1 p hp hp1old
        have hne : (p.2, u', p.1) ≠ (w, u, v) := by
          intro hc
          have : p.1 = v := congrArg (fun t => t.2.2) hc
          exact hp1 (this ▸ List.mem_append_right _ (by simp))
        refine List.mem_append_left _ ?_
        rw [hrest]
        exact (List.mem_erase_of_ne hne).mpr hin
      · rw [List.mem_singleton] at h1
        refine List.mem_append_right _ ?_
        rw [h1]
        rw [h1] at hp
        apply List.mem_map_of_mem
        rw [List.mem_filter, hadj]
        refine ⟨hp, ?_⟩
        simpa using hp1
    · show (s.mstEdges ++ [(u, v, w)]).length + 1 = (s.visited ++ [v]).length
      simp only [List.length_append, List.length_cons, List.length_nil]
      omega

/-- Packaged Prim behaviour: termination, cost = selected weight sum,
and the selected count against reachability from the start vertex. -/
theorem prims_mst_spec (num_vertices : Nat) (adj : AdjList)
    (hvalidA : ∀ u : Nat, ∀ p ∈ dictGet adj u, p.1 < num_vertices)
    (hV : 1 ≤ num_vertices) :
    ∃ s, primRun num_vertices adj = some s ∧
      prims_mst num_vertices adj = (s.mstCost, s.mstEdges) ∧
      s.mstCost = edgeWeightSum s.mstEdges ∧
      ((∀ y, y < num_vertices → adjReach adj 0 y) →
        s.mstEdges.length = num_vertices - 1) ∧
      ((∃ y, y < num_vertices ∧ ¬ adjReach adj 0 y) →
        s.mstEdges.length < num_vertices - 1) := by
  obtain ⟨s, hs⟩ := primRun_isSome num_vertices adj
  have hinv : PrimInv9 num_vertices adj s :=
    primLoop_invariant (PrimInv9 num_vertices adj)
      (fun s w u v rest hP hlt hpop =>
        primInv9_step hvalidA s w u v rest hP hlt hpop)
      _ _ _ (primInv9_init adj hV) hs
  obtain ⟨hadj, hcost, hnd, h0, hbnd, hreach, hheap, hcover, hlen⟩ := hinv
  have hexit := primLoop_exit _ _ _ hs
  have hvlen : s.visited.length ≤ num_vertices := length_le_of_nodup_lt hnd hbnd
  have hmst : prims_mst num_vertices adj = (s.mstCost, s.mstEdges) := by
    unfold prims_mst
    rw [if_neg (show ¬ num_vertices = 0 by omega), hs]
  refine ⟨s, hs, hmst, hcost, ?_, ?_⟩
  · -- every vertex reachable from 0 → spanning: V - 1 edges
    intro hconn
    rcases hexit with h1 | h1
    · omega
    · by_contra hne
      have hlt : s.visited.length < num_vertices := by omega
      obtain ⟨y, hy, hynot⟩ := exists_not_mem_of_length_lt hnd hlt
      obtain ⟨u', v', hu', hv', w', hw'⟩ :=
        reflTransGen_crossing (hconn y hy) (fun x => x ∈ s.visited) h0 hynot
      have := hcover u' hu' (v', w') hw' hv'
      rw [h1] at this
      simp at this
  · -- some vertex unreachable from 0 → strictly fewer than V - 1 edges
    rintro ⟨y, hy, hynot⟩
    have hy0 : y ≠ 0 := by
      intro hc
      exact hynot (hc ▸ Relation.ReflTransGen.refl)
    have hyvis : y ∉ s.visited := fun hc => hynot (hreach y hc)
    have hV2 : 2 ≤ num_vertices := by omega
    have hsub : s.visited ⊆ (List.range num_vertices).erase y := by
      intro x hx
      have hxy : x ≠ y := fun hc => hyvis (hc ▸ hx)
      rw [List.mem_erase_of_ne hxy]
      exact List.mem_range.mpr (hbnd x hx)
    have hle := (List.subperm_of_subset hnd hsub).length_le
    have herase : ((List.range num_vertices).erase y).length =
        num_vertices - 1 := by
      rw [List.length_erase_of_mem (List.mem_range.mpr hy)]
      simp
    omega

theorem dictGet_subset {adj : AdjList} {u : Nat} {p : AdjEntry}
    (hp : p ∈ dictGet adj u) : ∃ kv ∈ adj, p ∈ kv.2 := by
  unfold dictGet at hp
  cases hfind : adj.find? (fun q => q.1 = u) with
  | none => rw [hfind] at hp; simp at hp
  | some kv =>
    rw [hfind] at hp
    exact ⟨kv, List.mem_of_find?_eq_some hfind, hp⟩

/-- C9: each engine's returned total cost is the sum of the weights of
its selected edges, and the selected edge count is exactly `V - 1` when
the graph is connected and strictly fewer when it is not, so the caller
can detect partial completion from the returned pair.  (For `kruskals_mst`
the graph is the edge list and connectivity is `edgeConn`; for
`prims_mst` the graph is the adjacency list and connectivity is
reachability from the start vertex 0.) -/
theorem claim_C9_cost_and_size (V : Nat) (E : List Edge) (adj : AdjList)
    (hvalidE : ∀ e ∈ E, e.1 < V ∧ e.2.1 < V)
    (hvalidA : ∀ kv ∈ adj, ∀ p ∈ kv.2, p.1 < V)
    (hV : 1 ≤ V) :
    (∃ c m, kruskals_mst V E = some (c, m) ∧ c = edgeWeightSum m ∧
      ((∀ a b, a < V → b < V → edgeConn E a b) → m.length = V - 1) ∧
      ((∃ a b, a < V ∧ b < V ∧ ¬ edgeConn E a b) → m.length < V - 1)) ∧
    (∃ s, primRun V adj = some s ∧
      prims_mst V adj = (s.mstCost, s.mstEdges) ∧
      s.mstCost = edgeWeightSum s.mstEdges ∧
      ((∀ y, y < V → adjReach adj 0 y) → s.mstEdges.length = V - 1) ∧
      ((∃ y, y < V ∧ ¬ adjReach adj 0 y) → s.mstEdges.length < V - 1)) := by
  constructor
  · obtain ⟨c, m, h1, h2, _, h4, h5, _⟩ := kruskals_mst_spec V E hvalidE
    exact ⟨c, m, h1, h2, h4, h5⟩
  · have hvalidA' : ∀ u : Nat, ∀ p ∈ dictGet adj u, p.1 < V := by
      intro u p hp
      obtain ⟨kv, hkv, hpkv⟩ := dictGet_subset hp
      exact hvalidA kv hkv p hpkv
    exact prims_mst_spec V adj hvalidA' hV

/-- Witness for C9 on the concrete C2 graph. -/
theorem claim_C9_witness :
    (∃ c m, kruskals_mst 4 concreteEdges = some (c, m) ∧
      c = edgeWeightSum m ∧
      ((∀ a b, a < 4 → b < 4 → edgeConn concreteEdges a b) →
        m.length = 4 - 1) ∧
      ((∃ a b, a < 4 ∧ b < 4 ∧ ¬ edgeConn concreteEdges a b) →
        m.length < 4 - 1)) ∧
    (∃ s, primRun 4 (buildAdj 4 concreteEdges) = some s ∧
      prims_mst 4 (buildAdj 4 concreteEdges) = (s.mstCost, s.mstEdges) ∧
      s.mstCost = edgeWeightSum s.mstEdges ∧
      ((∀ y, y < 4 → adjReach (buildAdj 4 concreteEdges) 0 y) →
        s.mstEdges.length = 4 - 1) ∧
      ((∃ y, y < 4 ∧ ¬ adjReach (buildAdj 4 concreteEdges) 0 y) →
        s.mstEdges.length < 4 - 1)) :=
  claim_C9_cost_and_size 4 concreteEdges (buildAdj 4 concreteEdges)
    (by decide) (by decide) (by omega)

theorem mem_allLists {α : Type} :
    ∀ (k : Nat) (u l : List α), l.length = k → (∀ x ∈ l, x ∈ u) →
      l ∈ allLists k u := by
  intro k
  induction k with
  | zero =>
    intro u l hlen _
    rw [List.length_eq_zero] at hlen
    simp [allLists, hlen]
  | succ m ih =>
    intro u l hlen hmem
    cases l with
    | nil => simp at hlen
    | cons a l' =>
      have h1 : l' ∈ allLists m u :=
        ih u l' (by simpa using hlen) (fun x hx => hmem x (List.mem_cons_of_mem _ hx))
      rw [allLists, List.mem_bind]
      exact ⟨l', h1, List.mem_map_of_mem _ (hmem a (List.mem_cons_self _ _))⟩

theorem exists_min_over_list {α : Type} (w : α → ℚ) :
    ∀ (l : List α) (P : α → Prop), (∃ x ∈ l, P x) →
      ∃ m ∈ l, P m ∧ ∀ y ∈ l, P y → w m ≤ w y := by
  intro l
  induction l with
  | nil => rintro P ⟨x, hx, _⟩; simp at hx
  | cons a l ih =>
    rintro P ⟨x, hx, hPx⟩
    by_cases hl : ∃ y ∈ l, P y
    · obtain ⟨m, hm, hPm, hmin⟩ := ih P hl
      by_cases hPa : P a
      · rcases le_total (w a) (w m) with hle | hle
        · refine ⟨a, List.mem_cons_self _ _, hPa, ?_⟩
          intro y hy hPy
          rcases List.mem_cons.mp hy with rfl | hy'
          · exact le_refl _
          · exact le_trans hle (hmin y hy' hPy)
        · refine ⟨m, List.mem_cons_of_mem _ hm, hPm, ?_⟩
          intro y hy hPy
          rcases List.mem_cons.mp hy with rfl | hy'
          · exact hle
          · exact hmin y hy' hPy
      · refine ⟨m, List.mem_cons_of_mem _ hm, hPm, ?_⟩
        intro y hy hPy
        rcases List.mem_cons.mp hy with rfl | hy'
        · exact absurd hPy hPa
        · exact hmin y hy' hPy
    · have hPa : P a ∧ x = a := by
        rcases List.mem_cons.mp hx with rfl | hx'
        · exact ⟨hPx, rfl⟩
        · exact absurd ⟨x, hx', hPx⟩ hl
      refine ⟨a, List.mem_cons_self _ _, hPa.1, ?_⟩
      intro y hy hPy
      rcases List.mem_cons.mp hy with rfl | hy'
      · exact le_refl _
      · exact absurd ⟨y, hy', hPy⟩ hl

theorem flipEdge_edgeOf {E : List Edge} {t : Edge} (h : EdgeOf E t) :
    EdgeOf E (flipEdge t) := by
  rcases h with h | h
  · exact Or.inr (by simpa [flipEdge] using h)
  · exact Or.inl h

/-- If some spanning set exists, a minimum one exists. -/
theorem minSpanning_exists {V : Nat} {E : List Edge} {K : List Edge}
    (hK : SpanningSet V E K) : ∃ M, MinSpanning V E M := by
  have hKmem : K ∈ allLists (V - 1) (E ++ E.map flipEdge) := by
    apply mem_allLists _ _ _ hK.2.1
    intro x hx
    rcases hK.1 x hx with h | h
    · exact List.mem_append_left _ h
    · refine List.mem_append_right _ ?_
      have : x = flipEdge (flipEdge x) := by simp [flipEdge]
      rw [this]
      exact List.mem_map_of_mem _ h
  obtain ⟨M, _, hMP, hMmin⟩ :=
    exists_min_over_list edgeWeightSum (allLists (V - 1) (E ++ E.map flipEdge))
      (SpanningSet V E) ⟨K, hKmem, hK⟩
  refine ⟨M, hMP, ?_⟩
  intro T hT
  apply hMmin
  · apply mem_allLists _ _ _ hT.2.1
    intro x hx
    rcases hT.1 x hx with h | h
    · exact List.mem_append_left _ h
    · refine List.mem_append_right _ ?_
      have : x = flipEdge (flipEdge x) := by simp [flipEdge]
      rw [this]
      exact List.mem_map_of_mem _ h
  · exact hT

theorem edgeAdj_erase {M : List Edge} {f : Edge} {u v z : Nat}
    (h : edgeAdj M u v) (hz : z = f.1 ∨ z = f.2.1)
    (hzu : z ≠ u) (hzv : z ≠ v) : edgeAdj (M.erase f) u v := by
  obtain ⟨g, hg, hor⟩ := h
  have hgf : g ≠ f := by
    rintro rfl
    rcases hz with hz | hz <;> rcases hor with ⟨h1, h2⟩ | ⟨h1, h2⟩
    · exact hzu (hz.trans h1)
    · exact hzv (hz.trans h1)
    · exact hzv (hz.trans h2)
    · exact hzu (hz.trans h2)
  exact ⟨g, (List.mem_erase_of_ne hgf).mpr hg, hor⟩

theorem chain_snoc {r : Nat → Nat → Prop} :
    ∀ (a : Nat) (l : List Nat), List.Chain r a l →
      ∀ b, r (l.getLastD a) b → List.Chain r a (l ++ [b]) := by
  intro a l
  induction l generalizing a with
  | nil =>
    intro _ b hb
    exact List.Chain.cons hb List.Chain.nil
  | cons c l ih =>
    intro h b hb
    rw [List.chain_cons] at h
    rw [List.getLastD_cons] at hb
    exact List.Chain.cons h.1 (ih c h.2 b hb)

theorem getLastD_snoc {α : Type} (l : List α) (a d : α) :
    (l ++ [a]).getLastD d = a := by
  induction l generalizing d with
  | nil => rfl
  | cons c l ih =>
    rw [List.cons_append, List.getLastD_cons]
    exact ih c

theorem chain_split_left {r : Nat → Nat → Prop} :
    ∀ (l₁ : List Nat) (a b : Nat) (l₂ : List Nat),
      List.Chain r a (l₁ ++ b :: l₂) → List.Chain r a (l₁ ++ [b]) := by
  intro l₁
  induction l₁ with
  | nil =>
    intro a b l₂ h
    rw [List.nil_append, List.chain_cons] at h
    exact List.Chain.cons h.1 List.Chain.nil
  | cons c l ih =>
    intro a b l₂ h
    rw [List.cons_append, List.chain_cons] at h
    exact List.Chain.cons h.1 (ih c b l₂ h.2)

/-- From connectivity extract a duplicate-free path. -/
theorem path_of_conn {M : List Edge} {a b : Nat} (h : edgeConn M a b) :
    ∃ vs : List Nat, List.Chain (edgeAdj M) a vs ∧ vs.getLastD a = b ∧
      (a :: vs).Nodup := by
  induction h with
  | refl => exact ⟨[], List.Chain.nil, rfl, by simp⟩
  | tail hconn hadj ih =>
    rename_i c b'
    obtain ⟨vs, hch, hlast, hnd⟩ := ih
    by_cases hb : b' ∈ a :: vs
    · rcases List.mem_cons.mp hb with rfl | hb'
      · exact ⟨[], List.Chain.nil, rfl, by simp⟩
      · obtain ⟨l₁, l₂, rfl⟩ := List.append_of_mem hb'
        refine ⟨l₁ ++ [b'], chain_split_left l₁ a b' l₂ hch,
          getLastD_snoc l₁ b' a, ?_⟩
        have hsub : List.Sublist (a :: (l₁ ++ [b'])) (a :: (l₁ ++ b' :: l₂)) :=
          List.Sublist.cons₂ a
            (List.Sublist.append_left (List.Sublist.cons₂ b' (List.nil_sublist l₂)) l₁)
        exact hnd.sublist hsub
    · refine ⟨vs ++ [b'], chain_snoc a vs hch b' (by rw [hlast]; exact hadj),
        getLastD_snoc vs b' a, ?_⟩
      have : a :: (vs ++ [b']) = (a :: vs) ++ [b'] := rfl
      rw [this, List.nodup_append]
      refine ⟨hnd, List.nodup_singleton b', ?_⟩
      intro x hx hx'
      rw [List.mem_singleton] at hx'
      exact hb (hx' ▸ hx)

/-- A chain avoiding an endpoint of `f` survives erasing `f`. -/
theorem chain_conn_avoid {M : List Edge} {f : Edge} {z : Nat}
    (hz : z = f.1 ∨ z = f.2.1) :
    ∀ (c : Nat) (l : List Nat), List.Chain (edgeAdj M) c l → z ∉ c :: l →
      edgeConn (M.erase f) c (l.getLastD c) := by
  intro c l
  induction l generalizing c with
  | nil => intro _ _; exact edgeConn.refl c
  | cons d l ih =>
    intro hch hzm
    rw [List.chain_cons] at hch
    have hzc : z ≠ c := fun h => hzm (by rw [h]; exact List.mem_cons_self _ _)
    have hzd : z ≠ d := fun h =>
      hzm (by rw [h]; exact List.mem_cons_of_mem _ (List.mem_cons_self _ _))
    have h1 : edgeAdj (M.erase f) c d := edgeAdj_erase hch.1 hz hzc hzd
    have h2 := ih d hch.2 (fun h => hzm (List.mem_cons_of_mem _ h))
    rw [List.getLastD_cons]
    exact edgeConn.trans (edgeConn.single h1) h2

/-- On a duplicate-free path entering the cut `C` and leaving it, some
edge of `M` crosses `C`, and both of its endpoints stay connected to the
respective path ends even after that edge is erased. -/
theorem first_crossing {M : List Edge} (C : Nat → Prop) :
    ∀ (a : Nat) (vs : List Nat), List.Chain (edgeAdj M) a vs →
      (a :: vs).Nodup → C a → ¬ C (vs.getLastD a) →
      ∃ f ∈ M, ∃ x y : Nat,
        ((f.1 = x ∧ f.2.1 = y) ∨ (f.1 = y ∧ f.2.1 = x)) ∧
        C x ∧ ¬ C y ∧
        edgeConn (M.erase f) a x ∧ edgeConn (M.erase f) y (vs.getLastD a) := by
  intro a vs
  induction vs generalizing a with
  | nil => intro _ _ hCa hCl; exact absurd hCa hCl
  | cons d vs ih =>
    intro hch hnd hCa hCl
    rw [List.chain_cons] at hch
    rw [List.getLastD_cons] at hCl ⊢
    by_cases hCd : C d
    · have hnd' : (d :: vs).Nodup := (List.nodup_cons.mp hnd).2
      obtain ⟨f, hfM, x, y, hxy, hCx, hCy, hax, hyl⟩ := ih d hch.2 hnd' hCd hCl
      have hzf : ∃ z, (z = f.1 ∨ z = f.2.1) ∧ ¬ C z := by
        rcases hxy with ⟨h1, h2⟩ | ⟨h1, h2⟩
        · exact ⟨f.2.1, Or.inr rfl, by rw [h2]; exact hCy⟩
        · exact ⟨f.1, Or.inl rfl, by rw [h1]; exact hCy⟩
      obtain ⟨z, hz, hzC⟩ := hzf
      have hstep : edgeAdj (M.erase f) a d :=
        edgeAdj_erase hch.1 hz (fun h => hzC (by rw [h]; exact hCa))
          (fun h => hzC (by rw [h]; exact hCd))
      exact ⟨f, hfM, x, y, hxy, hCx, hCy,
        edgeConn.trans (edgeConn.single hstep) hax, hyl⟩
    · obtain ⟨g, hgM, hor⟩ := hch.1
      refine ⟨g, hgM, a, d, ?_, hCa, hCd, edgeConn.refl a, ?_⟩
      · rcases hor with ⟨h1, h2⟩ | ⟨h1, h2⟩
        · exact Or.inl ⟨h1, h2⟩
        · exact Or.inr ⟨h1, h2⟩
      · have ha_not : a ∉ d :: vs := (List.nodup_cons.mp hnd).1
        have hz : a = g.1 ∨ a = g.2.1 := by
          rcases hor with ⟨h1, _⟩ | ⟨_, h2⟩
          · exact Or.inl h1.symm
          · exact Or.inr h2.symm
        exact chain_conn_avoid hz d vs hch.2 ha_not

/-- Connectivity of `M` transfers to `e :: M.erase f` once the endpoints
of `f` are linked there. -/
theorem edgeConn_exchange {M : List Edge} {f : Edge} {e : Edge}
    (hlink : edgeConn (e :: M.erase f) f.1 f.2.1) :
    ∀ x y, edgeConn M x y → edgeConn (e :: M.erase f) x y := by
  intro x y h
  induction h with
  | refl => exact edgeConn.refl _
  | tail hc hadj ih =>
    rename_i c b'
    refine edgeConn.trans ih ?_
    obtain ⟨g, hg, hor⟩ := hadj
    by_cases hgf : g = f
    · subst hgf
      rcases hor with ⟨h1, h2⟩ | ⟨h1, h2⟩
      · rw [← h1, ← h2]; exact hlink
      · rw [← h1, ← h2]; exact hlink.symm
    · exact edgeConn.single
        ⟨g, List.mem_cons_of_mem _ ((List.mem_erase_of_ne hgf).mpr hg), hor⟩

theorem edgeWeightSum_perm {l1 l2 : List Edge} (h : l1.Perm l2) :
    edgeWeightSum l1 = edgeWeightSum l2 :=
  List.Perm.sum_eq (h.map _)

theorem edgeWeightSum_cons (e : Edge) (l : List Edge) :
    edgeWeightSum (e :: l) = e.2.2 + edgeWeightSum l := by
  simp [edgeWeightSum]

theorem perm_cons_erase_edge :
    ∀ {M : List Edge} {f : Edge}, f ∈ M → M.Perm (f :: M.erase f) := by
  intro M
  induction M with
  | nil => intro f h; simp at h
  | cons a l ih =>
    intro f h
    by_cases haf : a = f
    · subst haf
      rw [List.erase_cons_head]
    · have hbeq : ¬ (a == f) = true := by
        simpa using haf
      rw [List.erase_cons_tail (by simpa using haf)]
      have hfl : f ∈ l := by
        rcases List.mem_cons.mp h with h' | h'
        · exact absurd h'.symm haf
        · exact h'
      exact ((ih hfl).cons a).trans (List.Perm.swap f a _)

theorem edgeWeightSum_erase {M : List Edge} {f : Edge} (hf : f ∈ M) :
    edgeWeightSum M = f.2.2 + edgeWeightSum (M.erase f) := by
  rw [edgeWeightSum_perm (perm_cons_erase_edge hf), edgeWeightSum_cons]

/-- The cut/exchange step: if `e` crosses the cut `C` with minimal weight
among all crossing edges of the graph, then some minimum spanning set
contains `e` together with every non-crossing edge of the given minimum
spanning set `M`. -/
theorem exchange_step {V : Nat} {E M : List Edge} (hM : MinSpanning V E M)
    {C : Nat → Prop} {e : Edge}
    (hCa : C e.1) (hCb : ¬ C e.2.1) (ha : e.1 < V) (hb : e.2.1 < V)
    (hEe : EdgeOf E e)
    (hcut : ∀ g, EdgeOf E g → Crosses C g → e.2.2 ≤ g.2.2) :
    ∃ M', MinSpanning V E M' ∧ e ∈ M' ∧
      ∀ x ∈ M, ¬ Crosses C x → x ∈ M' := by
  obtain ⟨⟨hMof, hMlen, hMconn⟩, hMmin⟩ := hM
  have hconn : edgeConn M e.1 e.2.1 := hMconn _ _ ha hb
  obtain ⟨vs, hch, hlast, hnd⟩ := path_of_conn hconn
  obtain ⟨f, hfM, x, y, hxy, hCx, hCy, hax, hyb⟩ :=
    first_crossing C e.1 vs hch hnd hCa (by rw [hlast]; exact hCb)
  rw [hlast] at hyb
  have hfCross : Crosses C f := by
    rcases hxy with ⟨h1, h2⟩ | ⟨h1, h2⟩
    · exact Or.inl ⟨by rw [h1]; exact hCx, by rw [h2]; exact hCy⟩
    · exact Or.inr ⟨by rw [h2]; exact hCx, by rw [h1]; exact hCy⟩
  have hwf : e.2.2 ≤ f.2.2 := hcut f (hMof f hfM) hfCross
  refine ⟨e :: M.erase f, ?_, List.mem_cons_self _ _, ?_⟩
  · have hmono : ∀ u v, edgeConn (M.erase f) u v →
        edgeConn (e :: M.erase f) u v :=
      fun u v h => edgeConn_mono (fun g hg => List.mem_cons_of_mem _ hg) h
    have hestep : edgeConn (e :: M.erase f) e.1 e.2.1 :=
      edgeConn.single ⟨e, List.mem_cons_self _ _, Or.inl ⟨rfl, rfl⟩⟩
    have hlink_xy : edgeConn (e :: M.erase f) x y :=
      edgeConn.trans (hmono _ _ hax).symm
        (edgeConn.trans hestep (hmono _ _ hyb).symm)
    have hlink : edgeConn (e :: M.erase f) f.1 f.2.1 := by
      rcases hxy with ⟨h1, h2⟩ | ⟨h1, h2⟩
      · rw [h1, h2]; exact hlink_xy
      · rw [h1, h2]; exact hlink_xy.symm
    have hlift := edgeConn_exchange hlink
    have hlen' : (e :: M.erase f).length = V - 1 := by
      have h1 : (M.erase f).length = M.length - 1 := List.length_erase_of_mem hfM
      have h2 : 0 < M.length := List.length_pos_of_mem hfM
      rw [List.length_cons, h1]
      omega
    have hsp' : SpanningSet V E (e :: M.erase f) := by
      refine ⟨?_, hlen', ?_⟩
      · intro t ht
        rcases List.mem_cons.mp ht with rfl | ht'
        · exact hEe
        · exact hMof t (List.mem_of_mem_erase ht')
      · intro p q hp hq
        exact hlift p q (hMconn p q hp hq)
    refine ⟨hsp', ?_⟩
    intro T hT
    have hw : edgeWeightSum (e :: M.erase f) ≤ edgeWeightSum M := by
      rw [edgeWeightSum_cons, edgeWeightSum_erase hfM]
      exact add_le_add_right hwf _
    exact le_trans hw (hMmin T hT)
  · intro t htM htC
    have htf : t ≠ f := fun h => htC (by rw [h]; exact hfCross)
    exact List.mem_cons_of_mem _ ((List.mem_erase_of_ne htf).mpr htM)

theorem edgeConn_of_adj_imp {L1 L2 : List Edge}
    (h : ∀ u v, edgeAdj L1 u v → edgeAdj L2 u v) {a b : Nat}
    (hc : edgeConn L1 a b) : edgeConn L2 a b := by
  induction hc with
  | refl => exact edgeConn.refl _
  | tail hstep hadj ih => exact Relation.ReflTransGen.tail ih (h _ _ hadj)

theorem edgeAdj_flip_cons {g : Edge} {L : List Edge} {u v : Nat}
    (h : edgeAdj (g :: L) u v) : edgeAdj (flipEdge g :: L) u v := by
  obtain ⟨t, ht, hor⟩ := h
  rcases List.mem_cons.mp ht with rfl | ht'
  · refine ⟨flipEdge t, List.mem_cons_self _ _, ?_⟩
    rcases hor with ⟨h1, h2⟩ | ⟨h1, h2⟩
    · exact Or.inr ⟨h2, h1⟩
    · exact Or.inl ⟨h2, h1⟩
  · exact ⟨t, List.mem_cons_of_mem _ ht', hor⟩

/-- Reversing the orientation of an edge of a minimum spanning set yields
a minimum spanning set of the same weight. -/
theorem minSpanning_flip {V : Nat} {E M : List Edge} {g : Edge}
    (hM : MinSpanning V E M) (hg : g ∈ M) :
    MinSpanning V E (flipEdge g :: M.erase g) ∧
      edgeWeightSum (flipEdge g :: M.erase g) = edgeWeightSum M := by
  obtain ⟨⟨hMof, hMlen, hMconn⟩, hMmin⟩ := hM
  have hperm : M.Perm (g :: M.erase g) := perm_cons_erase_edge hg
  have hweq : edgeWeightSum (flipEdge g :: M.erase g) = edgeWeightSum M := by
    rw [edgeWeightSum_cons, edgeWeightSum_erase hg]
    rfl
  have hlen' : (flipEdge g :: M.erase g).length = V - 1 := by
    have h1 : (M.erase g).length = M.length - 1 := List.length_erase_of_mem hg
    have h2 : 0 < M.length := List.length_pos_of_mem hg
    rw [List.length_cons, h1]
    omega
  have hconn' : ∀ a b, a < V → b < V →
      edgeConn (flipEdge g :: M.erase g) a b := by
    intro a b ha hb
    have h1 : edgeConn (g :: M.erase g) a b :=
      edgeConn_mono (fun t ht => hperm.mem_iff.mp ht) (hMconn a b ha hb)
    exact edgeConn_of_adj_imp (fun u v => edgeAdj_flip_cons) h1
  refine ⟨⟨⟨?_, hlen', hconn'⟩, ?_⟩, hweq⟩
  · intro t ht
    rcases List.mem_cons.mp ht with rfl | ht'
    · exact flipEdge_edgeOf (hMof g hg)
    · exact hMof t (List.mem_of_mem_erase ht')
  · intro T hT
    rw [hweq]
    exact hMmin T hT

theorem sortEdges_sorted (E : List Edge) :
    List.Pairwise edgeLe (sortEdges E) :=
  List.sorted_insertionSort edgeLe E

/-- The optimality pass over the Kruskal loop: if the edges selected so
far extend to a minimum spanning set, then so do the finally selected
edges, which also stay duplicate-free. -/
theorem kruskalsAux_opt (V : Nat) (E0 Eall : List Edge)
    (hperm : Eall.Perm E0)
    (hvalid : ∀ e ∈ Eall, e.1 < V ∧ e.2.1 < V)
    (hsorted : List.Pairwise edgeLe Eall) :
    ∀ R P d cost mst,
      Eall = P ++ R →
      d.WF → d.parent.length = V →
      (∀ a b, a < V → b < V → (d.SameSet a b ↔ edgeConn P a b)) →
      (∀ x ∈ mst, x.1 < V ∧ x.2.1 < V ∧ d.SameSet x.1 x.2.1) →
      mst.Nodup →
      (∃ M, MinSpanning V E0 M ∧ ∀ x ∈ mst, x ∈ M) →
      ∀ c' m', kruskalsAux V R d cost mst = some (c', m') →
        m'.Nodup ∧ ∃ M, MinSpanning V E0 M ∧ ∀ x ∈ m', x ∈ M := by
  intro R
  induction R with
  | nil =>
    intro P d cost mst hEall hwf hlen hpart hmst hnd hM c' m' hrun
    have hstep : kruskalsAux V [] d cost mst = some (cost, mst) := rfl
    rw [hstep] at hrun
    simp only [Option.some.injEq, Prod.mk.injEq] at hrun
    obtain ⟨_, rfl⟩ := hrun
    exact ⟨hnd, hM⟩
  | cons e R' ih =>
    intro P d cost mst hEall hwf hlen hpart hmst hnd hM c' m' hrun
    obtain ⟨n1, n2, w⟩ := e
    have heEall : (n1, n2, w) ∈ Eall := by
      rw [hEall]
      exact List.mem_append_right _ (List.mem_cons_self _ _)
    have hn1 : n1 < V := by
      have := (hvalid _ heEall).1
      simpa using this
    have hn2 : n2 < V := by
      have := (hvalid _ heEall).2
      simpa using this
    have hn1' : n1 < d.parent.length := by omega
    have hn2' : n2 < d.parent.length := by omega
    obtain ⟨r1, _, hr1⟩ := droot_eq_some hwf.2 hn1'
    obtain ⟨r2, _, hr2⟩ := droot_eq_some hwf.2 hn2'
    by_cases hre : r1 = r2
    · -- skipped edge: partition unchanged
      obtain ⟨d1, hu, hwf1, _, hlen1, hiff1, hstat1⟩ :=
        DSU.union_noop hwf hn1' hn2' hr1 (hre ▸ hr2)
      have hconnP12 : edgeConn P n1 n2 := by
        rw [← hpart n1 n2 hn1 hn2]
        exact ⟨r1, hr1, hre ▸ hr2⟩
      have hcollapse : ∀ a b, edgeConn (P ++ [(n1, n2, w)]) a b ↔
          edgeConn P a b := by
        intro a b
        rw [edgeConn_snoc]
        constructor
        · rintro (h1 | ⟨h1, h2⟩ | ⟨h1, h2⟩)
          · exact h1
          · exact (h1.trans hconnP12).trans h2
          · exact (h1.trans hconnP12.symm).trans h2
        · exact Or.inl
      have heq1 : ∀ a b, d1.SameSet a b ↔ d.SameSet a b :=
        sameRoot_iff_of_reaches_iff hiff1
      simp only [kruskalsAux_cons, hu] at hrun
      exact ih (P ++ [(n1, n2, w)]) d1 cost mst (by rw [hEall]; simp) hwf1
        (by omega)
        (fun a b ha hb => by
          rw [heq1 a b, hpart a b ha hb, hcollapse a b])
        (fun x hx => ⟨(hmst x hx).1, (hmst x hx).2.1,
          (heq1 _ _).mpr (hmst x hx).2.2⟩)
        hnd hM c' m' hrun
    · -- selected edge: exchange into the minimum spanning set
      obtain ⟨d1, hu, hwf1, hlen1, hmerge, hrc, hxy⟩ :=
        DSU.union_merge hwf hn1' hn2' hr1 hr2 hre
      obtain ⟨M, hMmin, hMsub⟩ := hM
      have hCn1 : d.SameSet n1 n1 := ⟨r1, hr1, hr1⟩
      have hCn2 : ¬ d.SameSet n2 n1 := by
        rintro ⟨s, h2, h1⟩
        exact hre ((h1.unique hr1) ▸ (h2.unique hr2) ▸ rfl)
      have hEe : EdgeOf E0 (n1, n2, w) := Or.inl (hperm.mem_iff.mp heEall)
      have hcut : ∀ g, EdgeOf E0 g →
          Crosses (fun z => d.SameSet z n1) g → w ≤ g.2.2 := by
        intro g hgE hgC
        have hmem : ∃ g', g' ∈ Eall ∧ g'.2.2 = g.2.2 ∧
            Crosses (fun z => d.SameSet z n1) g' := by
          rcases hgE with h | h
          · exact ⟨g, hperm.mem_iff.mpr h, rfl, hgC⟩
          · refine ⟨flipEdge g, hperm.mem_iff.mpr h, rfl, ?_⟩
            rcases hgC with ⟨h1, h2⟩ | ⟨h1, h2⟩
            · exact Or.inr ⟨h1, h2⟩
            · exact Or.inl ⟨h1, h2⟩
        obtain ⟨g', hg'mem, hg'w, hg'C⟩ := hmem
        rw [← hg'w]
        have hg'Eall := hg'mem
        rw [hEall] at hg'mem
        rcases List.mem_append.mp hg'mem with hgP | hgR
        · exfalso
          have hb := hvalid g' hg'Eall
          have hss : d.SameSet g'.1 g'.2.1 := by
            rw [hpart _ _ hb.1 hb.2]
            exact edgeConn.single ⟨g', hgP, Or.inl ⟨rfl, rfl⟩⟩
          rcases hg'C with ⟨h1, h2⟩ | ⟨h1, h2⟩
          · exact h2 (sameRoot_trans (sameRoot_symm hss) h1)
          · exact h2 (sameRoot_trans hss h1)
        · have hpw := hsorted
          rw [hEall] at hpw
          have h2 := (List.pairwise_append.mp hpw).2.1
          rcases List.mem_cons.mp hgR with rfl | hgR'
          · exact le_refl _
          · exact (List.pairwise_cons.mp h2).1 g' hgR'
      obtain ⟨M', hM'min, heM', hkeep⟩ :=
        exchange_step hMmin (C := fun z => d.SameSet z n1)
          (e := (n1, n2, w)) hCn1 hCn2 hn1 hn2 hEe hcut
      have hsubM' : ∀ x ∈ mst ++ [(n1, n2, w)], x ∈ M' := by
        intro x hx
        rcases List.mem_append.mp hx with hx' | hx'
        · refine hkeep x (hMsub x hx') ?_
          intro hcr
          have hss := (hmst x hx').2.2
          rcases hcr with ⟨h1, h2⟩ | ⟨h1, h2⟩
          · exact h2 (sameRoot_trans (sameRoot_symm hss) h1)
          · exact h2 (sameRoot_trans hss h1)
        · rw [List.mem_singleton] at hx'
          subst hx'
          exact heM'
      have hnotin : (n1, n2, w) ∉ mst := by
        intro hin
        exact hCn2 (sameRoot_symm (hmst _ hin).2.2)
      have hnd1 : (mst ++ [(n1, n2, w)]).Nodup := by
        rw [List.nodup_append]
        refine ⟨hnd, List.nodup_singleton _, ?_⟩
        intro x hx hx'
        rw [List.mem_singleton] at hx'
        exact hnotin (hx' ▸ hx)
      have hmst1 : ∀ x ∈ mst ++ [(n1, n2, w)],
          x.1 < V ∧ x.2.1 < V ∧ d1.SameSet x.1 x.2.1 := by
        intro x hx
        rcases List.mem_append.mp hx with hx' | hx'
        · obtain ⟨hb1, hb2, hss⟩ := hmst x hx'
          exact ⟨hb1, hb2, (hmerge _ _).mpr (Or.inl hss)⟩
        · rw [List.mem_singleton] at hx'
          subst hx'
          exact ⟨hn1, hn2, hxy⟩
      simp only [kruskalsAux_cons, hu] at hrun
      by_cases hbreak : (mst ++ [(n1, n2, w)]).length = V - 1
      · rw [if_pos hbreak] at hrun
        simp only [Option.some.injEq, Prod.mk.injEq] at hrun
        obtain ⟨_, rfl⟩ := hrun
        exact ⟨hnd1, M', hM'min, hsubM'⟩
      · rw [if_neg hbreak] at hrun
        have hpart1 : ∀ a b, a < V → b < V →
            (d1.SameSet a b ↔ edgeConn (P ++ [(n1, n2, w)]) a b) := by
          intro a b ha hb
          rw [hmerge a b, edgeConn_snoc]
          rw [hpart a b ha hb, hpart a n1 ha hn1, hpart n2 b hn2 hb,
            hpart a n2 ha hn2, hpart n1 b hn1 hb]
        exact ih (P ++ [(n1, n2, w)]) d1 (cost + w) (mst ++ [(n1, n2, w)])
          (by rw [hEall]; simp) hwf1 (by omega) hpart1 hmst1 hnd1
          ⟨M', hM'min, hsubM'⟩ c' m' hrun

/-- On a connected graph, Kruskal returns the weight of a minimum
spanning set, and its selected edges form one. -/
theorem kruskal_optimal {V : Nat} {E : List Edge}
    (hvalid : ∀ e ∈ E, e.1 < V ∧ e.2.1 < V)
    (hconn : ∀ a b, a < V → b < V → edgeConn E a b) :
    ∃ c m M, kruskals_mst V E = some (c, m) ∧ MinSpanning V E M ∧
      c = edgeWeightSum M ∧ m.length = V - 1 := by
  obtain ⟨c, m, hrun, hc, hsub, hlenconn, _, hallconn⟩ :=
    kruskals_mst_spec V E hvalid
  have hlenm : m.length = V - 1 := hlenconn hconn
  have hmof : ∀ t ∈ m, EdgeOf E t := fun t ht =>
    Or.inl ((sortEdges_perm E).mem_iff.mp (hsub.subset ht))
  have hmsp : SpanningSet V E m := ⟨hmof, hlenm, hallconn hconn⟩
  obtain ⟨M0, hM0⟩ := minSpanning_exists hmsp
  have hrun' : kruskalsAux V (sortEdges E) (DSU.create V) 0 [] =
      some (c, m) := hrun
  obtain ⟨hmnd, M, hMmin, hmsubM⟩ :=
    kruskalsAux_opt V E (sortEdges E) (sortEdges_perm E)
      (fun e he => hvalid e ((sortEdges_perm E).mem_iff.mp he))
      (sortEdges_sorted E)
      (sortEdges E) [] (DSU.create V) 0 [] (by simp) (DSU.create_wf V)
      (by simp [DSU.create])
      (fun a b ha hb => by
        rw [create_sameSet_iff]
        constructor
        · rintro rfl; exact edgeConn.refl a
        · exact edgeConn_nil)
      (by simp) (by simp) ⟨M0, hM0, by simp⟩ c m hrun'
  have hsubperm : m.Subperm M :=
    List.subperm_of_subset hmnd (fun x hx => hmsubM x hx)
  have hlenM : M.length = V - 1 := hMmin.1.2.1
  have hperm : m.Perm M := by
    obtain ⟨l, hlp, hls⟩ := hsubperm
    have : l = M := hls.eq_of_length (by rw [hlp.length_eq, hlenm, hlenM])
    exact this ▸ hlp.symm
  exact ⟨c, m, M, hrun, hMmin, by rw [hc, edgeWeightSum_perm hperm], hlenm⟩

theorem heapLe_total (a b : HeapEntry) :
    heapLe a b = true ∨ heapLe b a = true := by
  simp only [heapLe, Bool.or_eq_true, Bool.and_eq_true, decide_eq_true_eq]
  rcases lt_trichotomy a.1 b.1 with h | h | h
  · exact Or.inl (Or.inl h)
  · rcases lt_trichotomy a.2.1 b.2.1 with h2 | h2 | h2
    · exact Or.inl (Or.inr ⟨h, Or.inl h2⟩)
    · rcases le_total a.2.2 b.2.2 with h3 | h3
      · exact Or.inl (Or.inr ⟨h, Or.inr ⟨h2, h3⟩⟩)
      · exact Or.inr (Or.inr ⟨h.symm, Or.inr ⟨h2.symm, h3⟩⟩)
    · exact Or.inr (Or.inr ⟨h.symm, Or.inl h2⟩)
  · exact Or.inr (Or.inl h)

theorem heapLe_refl (a : HeapEntry) : heapLe a a = true := by
  rcases heapLe_total a a with h | h <;> exact h

theorem heapLe_trans {a b c : HeapEntry} (h1 : heapLe a b = true)
    (h2 : heapLe b c = true) : heapLe a c = true := by
  simp only [heapLe, Bool.or_eq_true, Bool.and_eq_true,
    decide_eq_true_eq] at h1 h2 ⊢
  rcases h1 with h1 | ⟨e1, h1⟩
  · rcases h2 with h2 | ⟨e2, h2⟩
    · exact Or.inl (h1.trans h2)
    · exact Or.inl (by rw [← e2]; exact h1)
  · rcases h2 with h2 | ⟨e2, h2⟩
    · exact Or.inl (by rw [e1]; exact h2)
    · refine Or.inr ⟨e1.trans e2, ?_⟩
      rcases h1 with h1 | ⟨f1, h1⟩
      · rcases h2 with h2 | ⟨f2, h2⟩
        · exact Or.inl (h1.trans h2)
        · exact Or.inl (by rw [← f2]; exact h1)
      · rcases h2 with h2 | ⟨f2, h2⟩
        · exact Or.inl (by rw [f1]; exact h2)
        · exact Or.inr ⟨f1.trans f2, h1.trans h2⟩

theorem heapLe_weight {a b : HeapEntry} (h : heapLe a b = true) :
    a.1 ≤ b.1 := by
  simp only [heapLe, Bool.or_eq_true, Bool.and_eq_true,
    decide_eq_true_eq] at h
  rcases h with h | ⟨h, _⟩
  · exact le_of_lt h
  · exact le_of_eq h

theorem heapMin_le (x : HeapEntry) (xs : List HeapEntry) :
    ∀ y ∈ x :: xs, heapLe (heapMin x xs) y = true := by
  induction xs generalizing x with
  | nil =>
    intro y hy
    rw [List.mem_singleton] at hy
    subst hy
    exact heapLe_refl _
  | cons z zs ih =>
    intro y hy
    have hstep : heapMin x (z :: zs) =
        heapMin (if heapLe x z then x else z) zs := rfl
    rw [hstep]
    have hm := ih (if heapLe x z then x else z)
    have hmx : heapLe (heapMin (if heapLe x z then x else z) zs) x = true := by
      refine heapLe_trans (hm _ (List.mem_cons_self _ _)) ?_
      by_cases hc : heapLe x z = true
      · rw [if_pos hc]; exact heapLe_refl x
      · rw [if_neg hc]
        rcases heapLe_total x z with h | h
        · exact absurd h hc
        · exact h
    have hmz : heapLe (heapMin (if heapLe x z then x else z) zs) z = true := by
      refine heapLe_trans (hm _ (List.mem_cons_self _ _)) ?_
      by_cases hc : heapLe x z = true
      · rw [if_pos hc]; exact hc
      · rw [if_neg hc]; exact heapLe_refl z
    rcases List.mem_cons.mp hy with rfl | hy'
    · exact hmx
    · rcases List.mem_cons.mp hy' with rfl | hy''
      · exact hmz
      · exact hm _ (List.mem_cons_of_mem _ hy'')

theorem heapPop_min {h : List HeapEntry} {m : HeapEntry}
    {rest : List HeapEntry} (hp : heapPop h = some (m, rest)) :
    ∀ y ∈ h, heapLe m y = true := by
  cases h with
  | nil => simp [heapPop] at hp
  | cons x xs =>
    rw [heapPop] at hp
    injection hp with hp
    injection hp with h1 _
    subst h1
    exact heapMin_le x xs

theorem dictGet_cons_self {p : Nat × List AdjEntry} {A : AdjList} {v : Nat}
    (h : p.1 = v) : dictGet (p :: A) v = p.2 := by
  simp [dictGet, List.find?_cons, h]

theorem dictGet_cons_ne {p : Nat × List AdjEntry} {A : AdjList} {v : Nat}
    (h : ¬ p.1 = v) : dictGet (p :: A) v = dictGet A v := by
  simp [dictGet, List.find?_cons, h]

theorem dictGet_dictSnoc_sub :
    ∀ {A : AdjList} {k v : Nat} {e q : AdjEntry},
      q ∈ dictGet (dictSnoc A k e) v → q ∈ dictGet A v ∨ (v = k ∧ q = e) := by
  intro A
  induction A with
  | nil =>
    intro k v e q h
    simp [dictSnoc, dictGet] at h
  | cons p A' ih =>
    intro k v e q h
    rw [show dictSnoc (p :: A') k e =
      (if p.1 = k then (p.1, p.2 ++ [e]) else p) :: dictSnoc A' k e
      from rfl] at h
    by_cases hpv : p.1 = v
    · by_cases hpk : p.1 = k
      · rw [if_pos hpk] at h
        rw [dictGet_cons_self (show ((p.1 : Nat), p.2 ++ [e]).1 = v from hpv)]
          at h
        rw [dictGet_cons_self hpv]
        rcases List.mem_append.mp h with h1 | h1
        · exact Or.inl h1
        · rw [List.mem_singleton] at h1
          exact Or.inr ⟨by rw [← hpv]; exact hpk, h1⟩
      · rw [if_neg hpk] at h
        rw [dictGet_cons_self hpv] at h
        rw [dictGet_cons_self hpv]
        exact Or.inl h
    · have hkey : (if p.1 = k then ((p.1 : Nat), p.2 ++ [e]) else p).1 = p.1 := by
        by_cases hpk : p.1 = k
        · rw [if_pos hpk]
        · rw [if_neg hpk]
      rw [dictGet_cons_ne (show ¬ _ = v by rw [hkey]; exact hpv)] at h
      rw [dictGet_cons_ne hpv]
      exact ih h

theorem dictGet_dictSnoc_super :
    ∀ {A : AdjList} {k v : Nat} {e q : AdjEntry},
      q ∈ dictGet A v → q ∈ dictGet (dictSnoc A k e) v := by
  intro A
  induction A with
  | nil =>
    intro k v e q h
    simp [dictGet] at h
  | cons p A' ih =>
    intro k v e q h
    rw [show dictSnoc (p :: A') k e =
      (if p.1 = k then (p.1, p.2 ++ [e]) else p) :: dictSnoc A' k e
      from rfl]
    by_cases hpv : p.1 = v
    · rw [dictGet_cons_self hpv] at h
      by_cases hpk : p.1 = k
      · rw [if_pos hpk]
        rw [dictGet_cons_self (show ((p.1 : Nat), p.2 ++ [e]).1 = v from hpv)]
        exact List.mem_append_left _ h
      · rw [if_neg hpk]
        rw [dictGet_cons_self hpv]
        exact h
    · rw [dictGet_cons_ne hpv] at h
      have hkey : (if p.1 = k then ((p.1 : Nat), p.2 ++ [e]) else p).1 = p.1 := by
        by_cases hpk : p.1 = k
        · rw [if_pos hpk]
        · rw [if_neg hpk]
      rw [dictGet_cons_ne (show ¬ _ = v by rw [hkey]; exact hpv)]
      exact ih h

theorem dictGet_dictSnoc_self :
    ∀ {A : AdjList} {k : Nat} {e : AdjEntry},
      (∃ p ∈ A, p.1 = k) → e ∈ dictGet (dictSnoc A k e) k := by
  intro A
  induction A with
  | nil =>
    rintro k e ⟨p, hp, _⟩
    simp at hp
  | cons p A' ih =>
    rintro k e ⟨p0, hp0, hp0k⟩
    rw [show dictSnoc (p :: A') k e =
      (if p.1 = k then (p.1, p.2 ++ [e]) else p) :: dictSnoc A' k e
      from rfl]
    by_cases hpk : p.1 = k
    · rw [if_pos hpk]
      rw [dictGet_cons_self (show ((p.1 : Nat), p.2 ++ [e]).1 = k from hpk)]
      exact List.mem_append_right _ (List.mem_singleton_self _)
    · rw [if_neg hpk]
      rw [dictGet_cons_ne hpk]
      rcases List.mem_cons.mp hp0 with rfl | hp0'
      · exact absurd hp0k hpk
      · exact ih ⟨p0, hp0', hp0k⟩

theorem hasKey_dictSnoc {A : AdjList} {k u : Nat} {e : AdjEntry}
    (h : ∃ p ∈ A, p.1 = u) : ∃ p ∈ dictSnoc A k e, p.1 = u := by
  obtain ⟨p, hp, hpu⟩ := h
  refine ⟨if p.1 = k then (p.1, p.2 ++ [e]) else p, ?_, ?_⟩
  · exact List.mem_map_of_mem _ hp
  · by_cases hpk : p.1 = k
    · rw [if_pos hpk]; exact hpu
    · rw [if_neg hpk]; exact hpu

theorem hasKey_addEdge {A : AdjList} {g : Edge} {u : Nat}
    (h : ∃ p ∈ A, p.1 = u) : ∃ p ∈ addEdgeToAdj A g, p.1 = u :=
  hasKey_dictSnoc (hasKey_dictSnoc h)

theorem foldl_addEdge_hasKey :
    ∀ (L : List Edge) (A : AdjList) (u : Nat),
      (∃ p ∈ A, p.1 = u) → ∃ p ∈ L.foldl addEdgeToAdj A, p.1 = u := by
  intro L
  induction L with
  | nil => intro A u h; exact h
  | cons g L' ih =>
    intro A u h
    exact ih (addEdgeToAdj A g) u (hasKey_addEdge h)

theorem foldl_addEdge_super :
    ∀ (L : List Edge) (A : AdjList) (u : Nat) (q : AdjEntry),
      q ∈ dictGet A u → q ∈ dictGet (L.foldl addEdgeToAdj A) u := by
  intro L
  induction L with
  | nil => intro A u q h; exact h
  | cons g L' ih =>
    intro A u q h
    exact ih (addEdgeToAdj A g) u q
      (dictGet_dictSnoc_super (dictGet_dictSnoc_super h))

theorem foldl_addEdge_inv :
    ∀ (L : List Edge) (A : AdjList) (u : Nat) (q : AdjEntry),
      q ∈ dictGet (L.foldl addEdgeToAdj A) u →
      q ∈ dictGet A u ∨ ∃ g ∈ L,
        ((u = g.1 ∧ q = (g.2.1, g.2.2)) ∨ (u = g.2.1 ∧ q = (g.1, g.2.2))) := by
  intro L
  induction L with
  | nil => intro A u q h; exact Or.inl h
  | cons g L' ih =>
    intro A u q h
    rcases ih (addEdgeToAdj A g) u q h with h1 | ⟨g', hg', hc⟩
    · rcases dictGet_dictSnoc_sub h1 with h2 | ⟨hu, hq⟩
      · rcases dictGet_dictSnoc_sub h2 with h3 | ⟨hu, hq⟩
        · exact Or.inl h3
        · exact Or.inr ⟨g, List.mem_cons_self _ _, Or.inl ⟨hu, hq⟩⟩
      · exact Or.inr ⟨g, List.mem_cons_self _ _, Or.inr ⟨hu, hq⟩⟩
    · exact Or.inr ⟨g', List.mem_cons_of_mem _ hg', hc⟩

theorem buildAdj_hasKey {V : Nat} {E : List Edge} {u : Nat} (hu : u < V) :
    ∃ p ∈ buildAdj V E, p.1 = u := by
  unfold buildAdj
  refine foldl_addEdge_hasKey E _ u ⟨(u, []), ?_, rfl⟩
  exact List.mem_map_of_mem _ (List.mem_range.mpr hu)

/-- The adjacency list built by `main` contains each edge in both
directions. -/
theorem buildAdj_mem_fwd {V : Nat} {E : List Edge} {g : Edge} (hg : g ∈ E)
    (h1 : g.1 < V) (h2 : g.2.1 < V) :
    (g.2.1, g.2.2) ∈ dictGet (buildAdj V E) g.1 ∧
    (g.1, g.2.2) ∈ dictGet (buildAdj V E) g.2.1 := by
  obtain ⟨L1, L2, rfl⟩ := List.append_of_mem hg
  have hfold : buildAdj V (L1 ++ g :: L2) =
      L2.foldl addEdgeToAdj (addEdgeToAdj
        (L1.foldl addEdgeToAdj ((List.range V).map (fun i => (i, [])))) g) := by
    unfold buildAdj
    rw [List.foldl_append, List.foldl_cons]
  rw [hfold]
  have hk1 : ∃ p ∈ L1.foldl addEdgeToAdj
      ((List.range V).map (fun i => (i, []))), p.1 = g.1 := by
    refine foldl_addEdge_hasKey L1 _ _ ⟨(g.1, []), ?_, rfl⟩
    exact List.mem_map_of_mem _ (List.mem_range.mpr h1)
  have hk2 : ∃ p ∈ L1.foldl addEdgeToAdj
      ((List.range V).map (fun i => (i, []))), p.1 = g.2.1 := by
    refine foldl_addEdge_hasKey L1 _ _ ⟨(g.2.1, []), ?_, rfl⟩
    exact List.mem_map_of_mem _ (List.mem_range.mpr h2)
  constructor
  · refine foldl_addEdge_super L2 _ _ _ ?_
    exact dictGet_dictSnoc_super (dictGet_dictSnoc_self hk1)
  · refine foldl_addEdge_super L2 _ _ _ ?_
    exact dictGet_dictSnoc_self (hasKey_dictSnoc hk2)

/-- Conversely, every adjacency entry comes from an edge of the list. -/
theorem buildAdj_mem_inv {V : Nat} {E : List Edge} {u : Nat} {q : AdjEntry}
    (h : q ∈ dictGet (buildAdj V E) u) :
    (u, q.1, q.2) ∈ E ∨ (q.1, u, q.2) ∈ E := by
  rcases foldl_addEdge_inv E _ u q h with h1 | ⟨g, hg, hc⟩
  · exfalso
    obtain ⟨kv, hkv, hq⟩ := dictGet_subset h1
    rw [List.mem_map] at hkv
    obtain ⟨i, _, hkv⟩ := hkv
    rw [← hkv] at hq
    simp at hq
  · obtain ⟨a, b, c⟩ := g
    rcases hc with ⟨hu, hq⟩ | ⟨hu, hq⟩
    · left
      rw [hu, hq]
      exact hg
    · right
      rw [hu, hq]
      exact hg

/-- One loop pass preserves the Prim optimality invariant. -/
theorem primOpt_step {V : Nat} {E : List Edge} {adj : AdjList}
    (hvalidA : ∀ u : Nat, ∀ p ∈ dictGet adj u, p.1 < V)
    (hadjE : ∀ u : Nat, ∀ q ∈ dictGet adj u,
      ((u, q.1, q.2) : Edge) ∈ E ∨ ((q.1, u, q.2) : Edge) ∈ E)
    (hEadj : ∀ g ∈ E, g.1 < V → g.2.1 < V →
      (g.2.1, g.2.2) ∈ dictGet adj g.1 ∧ (g.1, g.2.2) ∈ dictGet adj g.2.1)
    (hvalidE : ∀ e ∈ E, e.1 < V ∧ e.2.1 < V)
    (s : PrimState) (w : ℚ) (u v : Nat) (rest : List HeapEntry)
    (hP : PrimOpt V E adj s) (hlt : s.visited.length < V)
    (hpop : heapPop s.minHeap = some ((w, u, v), rest)) :
    PrimOpt V E adj (primStep s w u v rest) := by
  obtain ⟨hinv9, hends, hndm, hconn0, M, hMmin, hMsub⟩ := hP
  have hinv9' := primInv9_step hvalidA s w u v rest hinv9 hlt hpop
  obtain ⟨hadj, hcost, hnd, h0, hbnd, hreach, hheap, hcover, hlen⟩ := hinv9
  obtain ⟨hmem, hrest, _⟩ := heapPop_spec hpop
  have hu_vis : u ∈ s.visited := (hheap _ hmem).1
  have hvw_adj : (v, w) ∈ dictGet adj u := (hheap _ hmem).2
  by_cases hv : v ∈ s.visited
  · have hps : primStep s w u v rest = { s with minHeap := rest } := by
      unfold primStep
      rw [if_pos hv]
    rw [hps] at hinv9' ⊢
    exact ⟨hinv9', hends, hndm, hconn0, M, hMmin, hMsub⟩
  · have hps : primStep s w u v rest = { s with
        minHeap := rest ++
          (((dictGet s.adjList v).filter
              (fun q => ¬ (q.1 ∈ s.visited ++ [v]))).map
            (fun q => (q.2, v, q.1)))
        visited := s.visited ++ [v]
        mstCost := s.mstCost + w
        mstEdges := s.mstEdges ++ [(u, v, w)] } := by
      unfold primStep
      rw [if_neg hv]
    rw [hps] at hinv9' ⊢
    have hu_lt : u < V := hbnd u hu_vis
    have hv_lt : v < V := hvalidA u (v, w) hvw_adj
    have hpopmin := heapPop_min hpop
    have hEe : EdgeOf E ((u, v, w) : Edge) := by
      rcases hadjE u (v, w) hvw_adj with h | h
      · exact Or.inl h
      · exact Or.inr h
    have hcut : ∀ g, EdgeOf E g →
        Crosses (fun z => z ∈ s.visited) g → w ≤ g.2.2 := by
      intro g hgE hgC
      have hgb : g.1 < V ∧ g.2.1 < V := by
        rcases hgE with h | h
        · exact hvalidE g h
        · have := hvalidE _ h
          exact ⟨this.2, this.1⟩
      have hboth : (g.2.1, g.2.2) ∈ dictGet adj g.1 ∧
          (g.1, g.2.2) ∈ dictGet adj g.2.1 := by
        rcases hgE with h | h
        · exact hEadj g h hgb.1 hgb.2
        · have := hEadj _ h hgb.2 hgb.1
          exact ⟨this.2, this.1⟩
      rcases hgC with ⟨h1, h2⟩ | ⟨h1, h2⟩
      · have hin := hcover g.1 h1 (g.2.1, g.2.2) hboth.1 h2
        exact heapLe_weight (hpopmin _ hin)
      · have hin := hcover g.2.1 h1 (g.1, g.2.2) hboth.2 h2
        exact heapLe_weight (hpopmin _ hin)
    obtain ⟨M', hM'min, heM', hkeep⟩ :=
      exchange_step hMmin (C := fun z => z ∈ s.visited) (e := (u, v, w))
        hu_vis hv hu_lt hv_lt hEe hcut
    refine ⟨hinv9', ?_, ?_, ?_, M', hM'min, ?_⟩
    · show ∀ x ∈ s.mstEdges ++ [(u, v, w)],
        x.1 ∈ s.visited ++ [v] ∧ x.2.1 ∈ s.visited ++ [v]
      intro x hx
      rcases List.mem_append.mp hx with hx' | hx'
      · obtain ⟨ha, hb⟩ := hends x hx'
        exact ⟨List.mem_append_left _ ha, List.mem_append_left _ hb⟩
      · rw [List.mem_singleton] at hx'
        subst hx'
        exact ⟨List.mem_append_left _ hu_vis,
          List.mem_append_right _ (List.mem_singleton_self _)⟩
    · show (s.mstEdges ++ [(u, v, w)]).Nodup
      have hnotin : ((u, v, w) : Edge) ∉ s.mstEdges := fun hc =>
        hv (hends _ hc).2
      rw [List.nodup_append]
      refine ⟨hndm, List.nodup_singleton _, ?_⟩
      intro x hx hx'
      rw [List.mem_singleton] at hx'
      exact hnotin (hx' ▸ hx)
    · show ∀ x ∈ s.visited ++ [v], edgeConn (s.mstEdges ++ [(u, v, w)]) 0 x
      intro x hx
      have hmono : ∀ p q, edgeConn s.mstEdges p q →
          edgeConn (s.mstEdges ++ [(u, v, w)]) p q :=
        fun p q h => edgeConn_mono (fun t ht => List.mem_append_left _ ht) h
      rcases List.mem_append.mp hx with hx' | hx'
      · exact hmono _ _ (hconn0 x hx')
      · rw [List.mem_singleton] at hx'
        rw [hx']
        refine Relation.ReflTransGen.tail (hmono _ _ (hconn0 u hu_vis)) ?_
        exact ⟨(u, v, w),
          List.mem_append_right _ (List.mem_singleton_self _),
          Or.inl ⟨rfl, rfl⟩⟩
    · show ∀ x ∈ s.mstEdges ++ [(u, v, w)], x ∈ M'
      intro x hx
      rcases List.mem_append.mp hx with hx' | hx'
      · refine hkeep x (hMsub x hx') ?_
        intro hcr
        rcases hcr with ⟨h1, h2⟩ | ⟨h1, h2⟩
        · exact h2 (hends x hx').2
        · exact h2 (hends x hx').1
      · rw [List.mem_singleton] at hx'
        subst hx'
        exact heM'

/-- Edge-list connectivity transfers to reachability through the built
adjacency list. -/
theorem edgeConn_adjReach {V : Nat} {E : List Edge}
    (hvalid : ∀ e ∈ E, e.1 < V ∧ e.2.1 < V) {a b : Nat}
    (h : edgeConn E a b) : adjReach (buildAdj V E) a b := by
  induction h with
  | refl => exact Relation.ReflTransGen.refl
  | tail hc hadj ih =>
    refine Relation.ReflTransGen.tail ih ?_
    obtain ⟨g, hg, hor⟩ := hadj
    have hb := hvalid g hg
    rcases hor with ⟨h1, h2⟩ | ⟨h1, h2⟩
    · exact ⟨g.2.2, by
        rw [← h1, ← h2]
        exact (buildAdj_mem_fwd hg hb.1 hb.2).1⟩
    · exact ⟨g.2.2, by
        rw [← h1, ← h2]
        exact (buildAdj_mem_fwd hg hb.1 hb.2).2⟩

/-- On a connected graph, Prim run on the adjacency list built by `main`
returns the weight of a minimum spanning set. -/
theorem prim_optimal {V : Nat} {E : List Edge} {M0 : List Edge}
    (hvalid : ∀ e ∈ E, e.1 < V ∧ e.2.1 < V)
    (hconn : ∀ a b, a < V → b < V → edgeConn E a b)
    (hV : 1 ≤ V) (hM0 : MinSpanning V E M0) :
    ∃ s M, primRun V (buildAdj V E) = some s ∧
      prims_mst V (buildAdj V E) = (s.mstCost, s.mstEdges) ∧
      MinSpanning V E M ∧ s.mstCost = edgeWeightSum M ∧
      s.mstEdges.length = V - 1 := by
  have hvalidA : ∀ u : Nat, ∀ p ∈ dictGet (buildAdj V E) u, p.1 < V := by
    intro u p hp
    rcases buildAdj_mem_inv hp with h | h
    · exact (hvalid _ h).2
    · exact (hvalid _ h).1
  have hadjE : ∀ u : Nat, ∀ q ∈ dictGet (buildAdj V E) u,
      ((u, q.1, q.2) : Edge) ∈ E ∨ ((q.1, u, q.2) : Edge) ∈ E :=
    fun u q hq => buildAdj_mem_inv hq
  have hEadj : ∀ g ∈ E, g.1 < V → g.2.1 < V →
      (g.2.1, g.2.2) ∈ dictGet (buildAdj V E) g.1 ∧
      (g.1, g.2.2) ∈ dictGet (buildAdj V E) g.2.1 :=
    fun g hg h1 h2 => buildAdj_mem_fwd hg h1 h2
  obtain ⟨s, hs, hmst, hcost, hlenc, _⟩ :=
    prims_mst_spec V (buildAdj V E) hvalidA hV
  have hreachAll : ∀ y, y < V → adjReach (buildAdj V E) 0 y := by
    intro y hy
    exact edgeConn_adjReach hvalid (hconn 0 y (by omega) hy)
  have hlenm : s.mstEdges.length = V - 1 := hlenc hreachAll
  have hopt : PrimOpt V E (buildAdj V E) s := by
    refine primLoop_invariant (PrimOpt V E (buildAdj V E))
      (fun s' w u v rest hP hlt hpop =>
        primOpt_step hvalidA hadjE hEadj hvalid s' w u v rest hP hlt hpop)
      _ _ _ ?_ hs
    refine ⟨primInv9_init _ hV, ?_, ?_, ?_, M0, hM0, ?_⟩
    · intro x hx
      simp [primInit] at hx
    · simp [primInit]
    · intro x hx
      simp only [primInit, List.mem_singleton] at hx
      rw [hx]
      exact Relation.ReflTransGen.refl
    · intro x hx
      simp [primInit] at hx
  obtain ⟨_, hends, hmnd, _, M, hMmin, hMsub⟩ := hopt
  have hsubperm : s.mstEdges.Subperm M :=
    List.subperm_of_subset hmnd (fun x hx => hMsub x hx)
  have hlenM : M.length = V - 1 := hMmin.1.2.1
  have hperm : s.mstEdges.Perm M := by
    obtain ⟨l, hlp, hls⟩ := hsubperm
    have : l = M := hls.eq_of_length (by rw [hlp.length_eq, hlenm, hlenM])
    exact this ▸ hlp.symm
  refine ⟨s, M, hs, hmst, hMmin, ?_, hlenm⟩
  rw [hcost, edgeWeightSum_perm hperm]

theorem concreteEdges_conn :
    ∀ a b, a < 4 → b < 4 → edgeConn concreteEdges a b := by
  have h01 : edgeConn concreteEdges 0 1 :=
    edgeConn.single ⟨(0, 1, 1), by simp [concreteEdges], Or.inl ⟨rfl, rfl⟩⟩
  have h12 : edgeConn concreteEdges 1 2 :=
    edgeConn.single ⟨(1, 2, 2), by simp [concreteEdges], Or.inl ⟨rfl, rfl⟩⟩
  have h23 : edgeConn concreteEdges 2 3 :=
    edgeConn.single ⟨(2, 3, 3), by simp [concreteEdges], Or.inl ⟨rfl, rfl⟩⟩
  have h0 : ∀ x, x < 4 → edgeConn concreteEdges 0 x := by
    intro x hx
    interval_cases x
    · exact edgeConn.refl 0
    · exact h01
    · exact h01.trans h12
    · exact (h01.trans h12).trans h23
  intro a b ha hb
  exact (h0 a ha).symm.trans (h0 b hb)

/-- C1: for every connected graph with `V` vertices and at least `V - 1`
edges, with non-negative weights and endpoints already remapped into
`[0, V)`, `kruskals_mst` on the edge list and `prims_mst` on the
adjacency list built from it by `main` return exactly equal total costs
— equal, in particular, within the `1e-9` tolerance — and each selects
exactly `V - 1` edges. -/
theorem claim_C1_engines_agree (V : Nat) (E : List Edge)
    (hvalid : ∀ e ∈ E, e.1 < V ∧ e.2.1 < V)
    (hw : ∀ e ∈ E, 0 ≤ e.2.2)
    (hE : V - 1 ≤ E.length)
    (hconn : ∀ a b, a < V → b < V → edgeConn E a b)
    (hV : 1 ≤ V) :
    ∃ ck mk, kruskals_mst V E = some (ck, mk) ∧
      ck = (prims_mst V (buildAdj V E)).1 ∧
      mk.length = V - 1 ∧
      (prims_mst V (buildAdj V E)).2.length = V - 1 := by
  obtain ⟨ck, mk, Mk, hkrun, hMkmin, hck, hmklen⟩ :=
    kruskal_optimal hvalid hconn
  obtain ⟨s, Mp, hprun, hpmst, hMpmin, hcp, hmplen⟩ :=
    prim_optimal hvalid hconn hV hMkmin
  refine ⟨ck, mk, hkrun, ?_, hmklen, ?_⟩
  · rw [hpmst]
    show ck = s.mstCost
    rw [hck, hcp]
    exact le_antisymm (hMkmin.2 Mp hMpmin.1) (hMpmin.2 Mk hMkmin.1)
  · rw [hpmst]
    exact hmplen

theorem claim_C1_witness :
    ∃ ck mk, kruskals_mst 4 concreteEdges = some (ck, mk) ∧
      ck = (prims_mst 4 (buildAdj 4 concreteEdges)).1 ∧
      mk.length = 4 - 1 ∧
      (prims_mst 4 (buildAdj 4 concreteEdges)).2.length = 4 - 1 :=
  claim_C1_engines_agree 4 concreteEdges (by decide) (by decide) (by decide)
    concreteEdges_conn (by decide)
